import Mathlib

/-!
Verification of the ordered key-value index structures of the
Data-Structures-Benchmark-Lab repository: the AVL-balanced binary search
tree (`binary_search_tree.py`), the probabilistic skip list
(`skip_list.py`), the fixed-radix linked array tree (`LAT.py`) and the
adaptive radix trie (`radix_trie.py`), together with the node classes of
`node_classes.py`.

Keys and values are modelled as natural numbers (the repository uses
non-negative fixed-width integers as keys and opaque payloads as values).
Python `None` is modelled by `Option.none`, Python exceptions by
`Except.error` carrying the exception class name.  The skip list's
mutable pointer graph is modelled as an explicit store (`List skipNode`
indexed by node id) with the head at index 0; `random.random() < p`
coin flips are injected as a `List Bool` per insertion.  Python `while`
loops over pointers are given fuel equal to the store size; a fuel-out
returns a junk value that is unreachable on the well-formed states the
theorems quantify over (Python's loops terminate there for the same
reason).  List reads/writes that would raise `IndexError` in Python are
modelled as no-ops except where a claim is about the raised error, in
which case `Except` is used (`SkipList.delete`).
-/

deriving instance DecidableEq for Except

namespace DSBench

/-! ## AVL binary search tree (`binary_search_tree.py`, `bstNode`)

`bstNode` has fields key, value, left, right and a cached `height`
(initialised to 1).  `None` children are the `nil` constructor. -/

inductive BTree where
  | nil : BTree
  | node (key value : Nat) (left right : BTree) (height : Nat) : BTree
deriving Repr, DecidableEq

namespace binarySearchTree

/-- Cached height read: `node.left.height if node.left else 0`. -/
def cheight : BTree → Nat
  | .nil => 0
  | .node _ _ _ _ h => h

/-- `__getBalance`: left cached height minus right cached height. -/
def balInt : BTree → Int
  | .nil => 0
  | .node _ _ l r _ => (cheight l : Int) - cheight r

/-- `__rotateLeft`: `x = node.right; y = x.left; x.left = node;
node.right = y`, then both touched heights are recomputed.  The source
would raise on a `None` right child; that branch is unreachable from
`__rebalance` and returns the input unchanged here. -/
def rotateLeft : BTree → BTree
  | .node k v l (.node rk rv rl rr _) _ =>
      let n := BTree.node k v l rl (1 + max (cheight l) (cheight rl))
      BTree.node rk rv n rr (1 + max (cheight n) (cheight rr))
  | t => t

/-- `__rotateRight`, mirror image of `__rotateLeft`. -/
def rotateRight : BTree → BTree
  | .node k v (.node lk lv ll lr _) r _ =>
      let n := BTree.node k v lr r (1 + max (cheight lr) (cheight r))
      BTree.node lk lv ll n (1 + max (cheight ll) (cheight n))
  | t => t

/-- `__rebalance`: recompute the cached height, then the four-case
rotation repair driven by the balance factor. -/
def rebalance : BTree → BTree
  | .nil => .nil
  | .node k v l r _ =>
      let t := BTree.node k v l r (1 + max (cheight l) (cheight r))
      if 1 < balInt t then
        if balInt l < 0 then
          rotateRight (BTree.node k v (rotateLeft l) r (1 + max (cheight l) (cheight r)))
        else rotateRight t
      else if balInt t < -1 then
        if 0 < balInt r then
          rotateLeft (BTree.node k v l (rotateRight r) (1 + max (cheight l) (cheight r)))
        else rotateLeft t
      else t

/-- The descent-and-insert of `add`, reformulated recursively: the
source records the traversed path and then applies `__rebalance` to
each ancestor bottom-up, which is exactly post-composition of
`rebalance` on the updated child along the recursive descent.  `none`
models the early `return` when the key is already present (in that case
the source rebalances nothing and leaves the tree untouched). -/
def addGo : BTree → Nat → Nat → Option BTree
  | .nil, k, v => some (.node k v .nil .nil 1)
  | .node key val l r h, k, v =>
      if k = key then none
      else if k < key then
        (addGo l k v).map fun l2 => rebalance (.node key val l2 r h)
      else
        (addGo r k v).map fun r2 => rebalance (.node key val l r2 h)

/-- `add(key, value)`: insert-if-absent with bottom-up rebalancing. -/
def add (t : BTree) (k v : Nat) : BTree :=
  (addGo t k v).getD t

/-- `binarySearchTree(keys, values)`: start from `root = None` and `add`
each pair of the zipped sequences. -/
def build (keys values : List Nat) : BTree :=
  (keys.zip values).foldl (fun t kv => add t kv.1 kv.2) .nil

/-- The loop of `search` on a non-`None` node: returns the *node* whose
key matches (not its value), or `None` when a `__step` falls off the
tree (the `nil` equation is that `if not node: return None` exit).
`__step` goes left when `node.key > key`. -/
def searchNode : BTree → Nat → Option BTree
  | .nil, _ => none
  | t@(.node key _ l r _), k =>
      if key = k then some t
      else if k < key then searchNode l k
      else searchNode r k

/-- `search(key)`: the loop guard `node.key != key` dereferences
`self.root` unconditionally, so an empty tree raises `AttributeError`
(`'NoneType' object has no attribute 'key'`). -/
def search (t : BTree) (k : Nat) : Except String (Option BTree) :=
  match t with
  | .nil => .error "AttributeError"
  | _ => .ok (searchNode t k)

/-- Key stored at a node (0 for `nil`; never used on `nil`). -/
def nodeKey : BTree → Nat
  | .nil => 0
  | .node k _ _ _ _ => k

/-- Value stored at a node (0 for `nil`; never used on `nil`). -/
def nodeValue : BTree → Nat
  | .nil => 0
  | .node _ v _ _ _ => v

/-- `getMaxKey`: rightmost descent; raises on an empty tree
(`__max(None)` reads `node.right`). -/
def getMaxKey : BTree → Except String Nat
  | .nil => .error "AttributeError"
  | .node k _ _ r _ =>
      match r with
      | .nil => .ok k
      | _ => getMaxKey r

/-- `getMinKey`: leftmost descent; raises on an empty tree. -/
def getMinKey : BTree → Except String Nat
  | .nil => .error "AttributeError"
  | .node k _ l _ _ =>
      match l with
      | .nil => .ok k
      | _ => getMinKey l

/-- Real (recomputed) height, the quantity the cached field must equal. -/
def realH : BTree → Nat
  | .nil => 0
  | .node _ _ l r _ => 1 + max (realH l) (realH r)

/-- Every cached height field equals `1 + max` of the children's real
heights (the spec's height-cache invariant). -/
def cacheOk : BTree → Bool
  | .nil => true
  | .node _ _ l r h => h = 1 + max (realH l) (realH r) && cacheOk l && cacheOk r

/-- Every node's real balance factor lies in `{-1, 0, 1}`. -/
def balancedOk : BTree → Bool
  | .nil => true
  | .node _ _ l r _ =>
      (realH l : Int) - realH r ≤ 1 && (realH r : Int) - realH l ≤ 1 &&
        balancedOk l && balancedOk r

/-- Does the key occur anywhere in the tree (plain scan, no order
assumption)? -/
def hasKey : BTree → Nat → Bool
  | .nil, _ => false
  | .node key _ l r _, k => key = k || hasKey l k || hasKey r k

/-- In-order key/value listing. -/
def inorder : BTree → List (Nat × Nat)
  | .nil => []
  | .node k v l r _ => inorder l ++ (k, v) :: inorder r

/-- The BST ordering invariant, stated on the in-order listing. -/
def Ordered (t : BTree) : Prop :=
  (inorder t).Pairwise (fun a b => a.1 < b.1)

/-- Sorted-list insertion of a fresh key (the effect of `add` on the
in-order listing when the key is absent). -/
def insKV (k v : Nat) : List (Nat × Nat) → List (Nat × Nat)
  | [] => [(k, v)]
  | (a, b) :: rest =>
      if k < a then (k, v) :: (a, b) :: rest else (a, b) :: insKV k v rest

end binarySearchTree

/-- What a Python caller of `search` can observe as the returned
object: `None`, a plain integer value, or a `bstNode` object (these are
distinguishable at runtime, and `node == value` is `False` because
`bstNode` has no `__eq__`). -/
inductive PyRes where
  | pynone : PyRes
  | pint (n : Nat) : PyRes
  | pnode (t : BTree) : PyRes
deriving Repr, DecidableEq

/-- The observable result of `binarySearchTree.search`: the found
*node object* (not its value), `None`, or the `AttributeError` on an
empty tree. -/
def binarySearchTree.searchPy (t : BTree) (k : Nat) : Except String PyRes :=
  match binarySearchTree.search t k with
  | .error e => .error e
  | .ok none => .ok .pynone
  | .ok (some n) => .ok (.pnode n)

/-- First value paired with key `k` in an input pair sequence
("first occurrence wins"). -/
def firstWin (l : List (Nat × Nat)) (k : Nat) : Option Nat :=
  (l.find? fun p => p.1 = k).map fun p => p.2

/-- Last value paired with key `k` in an input pair sequence
("last occurrence wins"). -/
def lastWin (l : List (Nat × Nat)) (k : Nat) : Option Nat :=
  (l.reverse.find? fun p => p.1 = k).map fun p => p.2

/-- Smallest value paired with key `k` in an input pair sequence. -/
def minValFor (l : List (Nat × Nat)) (k : Nat) : Option Nat :=
  ((l.filter fun p => p.1 = k).map fun p => p.2).min?

/-! ## Fixed-radix linked array tree (`LAT.py`, `IndexNode`, `LATLeafNode`)

`IndexNode.pointers` and `LATLeafNode.data` are Python dicts, modelled
as association lists (the `radix`/`height`/`level` fields stored on
`IndexNode` are construction metadata never read by the operations and
are omitted). -/

inductive LatNode where
  | index (pointers : List (Nat × LatNode)) : LatNode
  | leaf (data : List (Nat × Nat)) : LatNode
deriving Repr

mutual

/-- Node count of a LAT subtree, used as loop fuel for the min/max
descents (any bound on the depth works; Python's loops terminate
because the tree is finite). -/
def latSize : LatNode → Nat
  | .index ptrs => 1 + latSizeL ptrs
  | .leaf _ => 1

def latSizeL : List (Nat × LatNode) → Nat
  | [] => 0
  | (_, c) :: rest => 1 + latSize c + latSizeL rest

end

/-- Python dict lookup `d.get(k)` on an association list. -/
def dictGet (l : List (Nat × Nat)) (k : Nat) : Option Nat :=
  (l.find? fun p => p.1 = k).map fun p => p.2

/-- Python dict assignment `d[k] = v`: overwrite in place or append. -/
def dictSet (k v : Nat) : List (Nat × Nat) → List (Nat × Nat)
  | [] => [(k, v)]
  | (a, b) :: rest => if a = k then (k, v) :: rest else (a, b) :: dictSet k v rest

/-- Lookup in a digit-indexed child dict. -/
def childGet (l : List (Nat × LatNode)) (d : Nat) : Option LatNode :=
  (l.find? fun p => p.1 = d).map fun p => p.2

/-- Assignment in a digit-indexed child dict. -/
def childSet (d : Nat) (c : LatNode) : List (Nat × LatNode) → List (Nat × LatNode)
  | [] => [(d, c)]
  | (a, b) :: rest => if a = d then (d, c) :: rest else (a, b) :: childSet d c rest

structure LAT where
  radix : Nat
  height : Nat
  root : LatNode
deriving Repr

namespace LAT

/-- `key_conversion`: exactly `height` iterations of `key % radix` /
`key //= radix`, most significant digit first. -/
def keyConversion (radix : Nat) : Nat → Nat → List Nat
  | 0, _ => []
  | h + 1, key => keyConversion radix h (key / radix) ++ [key % radix]

/-- The digit-descent of `add`: the last digit addresses a
`LATLeafNode` whose dict is updated (`data[key] = value`, silent
overwrite); earlier digits address `IndexNode`s created lazily.  The
two mismatch fallbacks (a leaf met above the leaf level, an index node
met at the leaf level) would raise `AttributeError` in Python and are
unreachable on well-formed trees; they leave the node unchanged. -/
def addGo (k v : Nat) : LatNode → List Nat → LatNode
  | n, [] => n
  | .index ptrs, d :: rest =>
      match rest with
      | [] =>
          let c := match childGet ptrs d with
                   | some c => c
                   | none => .leaf []
          match c with
          | .leaf data => .index (childSet d (.leaf (dictSet k v data)) ptrs)
          | .index p => .index (childSet d (.index p) ptrs)
      | _ :: _ =>
          let c := match childGet ptrs d with
                   | some c => c
                   | none => .index []
          .index (childSet d (addGo k v c rest) ptrs)
  | .leaf data, _ :: _ => .leaf data

/-- `add(key, value)`. -/
def add (t : LAT) (k v : Nat) : LAT :=
  { t with root := addGo k v t.root (keyConversion t.radix t.height k) }

/-- The digit-descent of `search`; after consuming the whole path the
node must be a `LATLeafNode`, whose dict is probed with the full key. -/
def searchGo (k : Nat) : LatNode → List Nat → Option Nat
  | .leaf data, [] => dictGet data k
  | .index _, [] => none
  | .index ptrs, d :: rest =>
      match childGet ptrs d with
      | none => none
      | some c => searchGo k c rest
  | .leaf _, _ :: _ => none

/-- `search(key)`. -/
def search (t : LAT) (k : Nat) : Option Nat :=
  searchGo k t.root (keyConversion t.radix t.height k)

/-- `LAT(keys, values, radix, height)`: falsy (`None` or `0`) radix or
height replaces *both* with the defaults 4 and 4; then every zipped
pair is added to an empty root `IndexNode`. -/
def build (keys values : List Nat) (radix height : Option Nat) : LAT :=
  let cfg : Nat × Nat :=
    if radix.getD 0 = 0 || height.getD 0 = 0 then (4, 4)
    else (radix.getD 4, height.getD 4)
  (keys.zip values).foldl (fun t kv => add t kv.1 kv.2)
    { radix := cfg.1, height := cfg.2, root := .index [] }

/-- Smallest key of a non-empty association list (`min(d.keys())`);
`none` models the `ValueError` Python raises on an empty dict. -/
def minKeyOf (l : List (Nat × LatNode)) : Option Nat :=
  (l.map fun p => p.1).min?

/-- Largest key of a non-empty association list (`max(d.keys())`). -/
def maxKeyOf (l : List (Nat × LatNode)) : Option Nat :=
  (l.map fun p => p.1).max?

/-- `getMinKey`'s `while` loop: descend through the smallest present
digit until a leaf, then take the smallest key stored there.  An empty
dict on the way makes Python raise `ValueError` (modelled as
`.error`); fuel bounds the loop by the tree size (always sufficient:
each step moves to a subterm). -/
def minGo : Nat → LatNode → Except String Nat
  | _, .leaf data => match (data.map fun p => p.1).min? with
      | some m => .ok m
      | none => .error "ValueError"
  | 0, .index _ => .error "fuel"
  | fuel + 1, .index ptrs =>
      match minKeyOf ptrs with
      | none => .error "ValueError"
      | some d => match childGet ptrs d with
          | some c => minGo fuel c
          | none => .error "KeyError"

/-- `getMaxKey`'s loop, mirror image of `getMinKey`'s. -/
def maxGo : Nat → LatNode → Except String Nat
  | _, .leaf data => match (data.map fun p => p.1).max? with
      | some m => .ok m
      | none => .error "ValueError"
  | 0, .index _ => .error "fuel"
  | fuel + 1, .index ptrs =>
      match maxKeyOf ptrs with
      | none => .error "ValueError"
      | some d => match childGet ptrs d with
          | some c => maxGo fuel c
          | none => .error "KeyError"

def getMinKey (t : LAT) : Except String Nat := minGo (latSize t.root) t.root

def getMaxKey (t : LAT) : Except String Nat := maxGo (latSize t.root) t.root

mutual

/-- Well-formedness: index nodes down to the last level, leaves exactly
at the last level — the shape every tree built by the constructor and
`add` has. -/
def wf : LatNode → Nat → Bool
  | .leaf _, 0 => true
  | .index _, 0 => false
  | .leaf _, _ + 1 => false
  | .index ptrs, h + 1 => wfL ptrs h

def wfL : List (Nat × LatNode) → Nat → Bool
  | [], _ => true
  | (_, c) :: rest, h => wf c h && wfL rest h

end

end LAT

/-! ## Adaptive radix trie (`radix_trie.py`, `RadixTrieNode`)

`RadixTrieNode` holds its digit (`key`), an optional value and a dict
of children by digit. -/

inductive TrieNode where
  | mk (digit : Nat) (value : Option Nat) (children : List (Nat × TrieNode)) : TrieNode
deriving Repr

mutual

/-- Node count of a trie subtree, used as loop fuel for the min/max
descents (any bound on the depth works; Python's loops terminate
because the tree is finite). -/
def trieSize : TrieNode → Nat
  | .mk _ _ ch => 1 + trieSizeL ch

def trieSizeL : List (Nat × TrieNode) → Nat
  | [] => 0
  | (_, c) :: rest => 1 + trieSize c + trieSizeL rest

end

def TrieNode.digit : TrieNode → Nat
  | .mk d _ _ => d

def TrieNode.value : TrieNode → Option Nat
  | .mk _ v _ => v

def TrieNode.children : TrieNode → List (Nat × TrieNode)
  | .mk _ _ c => c

/-- Dict lookup in a digit-indexed trie child dict. -/
def trieGet (l : List (Nat × TrieNode)) (d : Nat) : Option TrieNode :=
  (l.find? fun p => p.1 = d).map fun p => p.2

/-- Dict assignment in a digit-indexed trie child dict. -/
def trieSet (d : Nat) (c : TrieNode) : List (Nat × TrieNode) → List (Nat × TrieNode)
  | [] => [(d, c)]
  | (a, b) :: rest => if a = d then (d, c) :: rest else (a, b) :: trieSet d c rest

structure RadixTrie where
  radix : Nat
  root : TrieNode
deriving Repr

namespace RadixTrie

/-- One step of `_break_key`'s `while key > 0` loop, with fuel: the
loop terminates in at most `key` iterations when `radix ≥ 2` (for
`radix ≤ 1` the Python loop never terminates; exhausted fuel models
that divergence by returning the digits accumulated so far). -/
def breakKeyGo (radix : Nat) : Nat → Nat → List Nat → List Nat
  | 0, _, acc => acc
  | fuel + 1, key, acc =>
      if 0 < key then breakKeyGo radix fuel (key / radix) (key % radix :: acc)
      else acc

/-- `_break_key`: base-`radix` digits of the key, most significant
first; the empty list for key 0. -/
def breakKey (radix key : Nat) : List Nat :=
  breakKeyGo radix key key []

/-- Recompose a most-significant-first digit string into the key it
denotes (`breakKey` is a right inverse, giving injectivity for
`radix ≥ 2`). -/
def ofDigits (radix : Nat) (l : List Nat) : Nat :=
  l.foldl (fun a d => a * radix + d) 0

/-- The digit-descent of `add`: create missing children along the
path, then write the value only if the target node holds none
("first write wins"). -/
def addGo (v : Nat) : TrieNode → List Nat → TrieNode
  | .mk d val ch, [] =>
      match val with
      | some w => .mk d (some w) ch
      | none => .mk d (some v) ch
  | .mk d val ch, dg :: rest =>
      let c := match trieGet ch dg with
               | some c => c
               | none => .mk dg none []
      .mk d val (trieSet dg (addGo v c rest) ch)

/-- `add(key, value)`. -/
def add (t : RadixTrie) (k v : Nat) : RadixTrie :=
  { t with root := addGo v t.root (breakKey t.radix k) }

/-- The digit-descent of `search`. -/
def searchGo : TrieNode → List Nat → Option Nat
  | n, [] => n.value
  | .mk _ _ ch, dg :: rest =>
      match trieGet ch dg with
      | none => none
      | some c => searchGo c rest

/-- `search(key)`: the value found at the end of the digit path, which
is `None` both for a missing path and for a valueless node. -/
def search (t : RadixTrie) (k : Nat) : Option Nat :=
  searchGo t.root (breakKey t.radix k)

/-- Lexicographic order on (key, value) pairs — Python tuple
comparison, as used by `sorted(zip(keys, values))`. -/
def pairLe (a b : Nat × Nat) : Prop :=
  a.1 < b.1 ∨ (a.1 = b.1 ∧ a.2 ≤ b.2)

instance : DecidableRel pairLe := fun a b => by
  unfold pairLe; infer_instance

instance : IsTotal (Nat × Nat) pairLe :=
  ⟨fun a b => by unfold pairLe; omega⟩

instance : IsTrans (Nat × Nat) pairLe :=
  ⟨fun a b c hab hbc => by unfold pairLe at *; omega⟩

/-- `sorted(zip(keys, values))` (Python sorts tuples lexicographically;
on ℕ × ℕ the lexicographic order is antisymmetric, so any sorted
permutation is the unique one Python produces). -/
def sortedPairs (keys values : List Nat) : List (Nat × Nat) :=
  (keys.zip values).insertionSort pairLe

/-- `int(np.sqrt(np.median(keys)))` for a non-empty key list: median of
the sorted keys (numpy averages the two middle elements for even
length; square root and `int` truncate, which on half-integers agrees
with `Nat.sqrt` of the floor).  Idealises numpy's float arithmetic as
exact; no theorem below depends on this branch (every claim supplies
the radix explicitly). -/
def derivedRadix (keys : List Nat) : Nat :=
  let s := keys.insertionSort (· ≤ ·)
  let n := s.length
  let med2 := s.getD (n / 2) 0 + s.getD ((n - 1) / 2) 0
  Nat.sqrt (med2 / 2)

/-- `RadixTrie(keys, values, radix)`: empty input keeps an empty root
and `radix or 2`; otherwise the zipped pairs are sorted
lexicographically, the radix is `radix or int(np.sqrt(np.median(keys)))`,
and the sorted pairs are added in order (first-written value wins). -/
def build (keys values : List Nat) (radix : Option Nat) : RadixTrie :=
  if keys.length = 0 then
    { radix := if radix.getD 0 = 0 then 2 else radix.getD 0, root := .mk 0 none [] }
  else
    let r := if radix.getD 0 = 0 then derivedRadix keys else radix.getD 0
    (sortedPairs keys values).foldl (fun t kv => add t kv.1 kv.2)
      { radix := r, root := .mk 0 none [] }

/-- Largest digit present in a child dict, with its child. -/
def maxChild (l : List (Nat × TrieNode)) : Option (Nat × TrieNode) :=
  l.foldl (fun acc p =>
    match acc with
    | none => some p
    | some q => if q.1 < p.1 then some p else some q) none

/-- `getMaxKey`'s greedy loop: follow the largest present child digit,
accumulating `max_key * radix + digit`, until a childless node.  Fuel
bounds the loop by the tree size (always sufficient: each step moves to
a strict subterm). -/
def maxKeyGo (radix : Nat) : Nat → TrieNode → Nat → Nat
  | 0, _, acc => acc
  | fuel + 1, n, acc =>
      match maxChild n.children with
      | none => acc
      | some (d, c) => maxKeyGo radix fuel c (acc * radix + d)

/-- `getMaxKey()`. -/
def getMaxKey (t : RadixTrie) : Nat :=
  maxKeyGo t.radix (trieSize t.root) t.root 0

/-- Digits of a child dict sorted ascending (`sorted(children.keys())`). -/
def sortedDigits (l : List (Nat × TrieNode)) : List (Nat × TrieNode) :=
  l.insertionSort fun a b => a.1 ≤ b.1

/-- `getMinKey`'s depth-first search: a node holding a value returns
the accumulated path immediately (pre-order), else the children are
explored smallest digit first. -/
def minKeyGo (radix : Nat) : Nat → TrieNode → Nat → Option Nat
  | 0, _, _ => none
  | fuel + 1, n, path =>
      match n.value with
      | some _ => some path
      | none =>
          (sortedDigits n.children).findSome? fun p =>
            minKeyGo radix fuel p.2 (path * radix + p.1)

/-- `getMinKey()`: `None` when no node holds a value. -/
def getMinKey (t : RadixTrie) : Option Nat :=
  minKeyGo t.radix (trieSize t.root) t.root 0

end RadixTrie

/-! ## Skip list (`skip_list.py`, `skipNode`)

`skipNode` holds a key (`float('-inf')` on the head sentinel, modelled
as `none`), a value (`None` on the head, modelled as `none`) and a
`forward` array of node references, one per level, modelled as store
indices.  `skipNode.__eq__` compares *values* (`@total_ordering` on
`value`), which is what `delete`'s `nxt == old_node` test runs.  The
store is `nodes`, the head is index 0, and each `add` appends one
node. -/

structure skipNode where
  key : Option Nat
  value : Option Nat
  forward : List (Option Nat)
deriving Repr, DecidableEq

structure SkipList where
  maxLevels : Nat
  lvl : Nat
  nodes : List skipNode
deriving Repr, DecidableEq

namespace SkipList

/-- `key < target` for a node key (`-inf` is below everything). -/
def keyBelow (a : Option Nat) (k : Nat) : Bool :=
  match a with
  | none => true
  | some x => x < k

/-- Node record at a store index.  A dangling index yields an inert
default; on the states the theorems quantify over every followed index
is in range, as it is in Python. -/
def nodeAt (s : SkipList) (i : Nat) : skipNode :=
  s.nodes.getD i ⟨none, none, []⟩

/-- `node.forward[lv]`: `none` both for a `None` entry and for an
out-of-range level (the latter cannot be reached by `_search_helper`
on the states the theorems quantify over). -/
def fwd (s : SkipList) (i lv : Nat) : Option Nat :=
  (s.nodeAt i).forward.getD lv none

/-- The inner `while` of `_search_helper`: advance along level `lv`
while the next node's key is below the target.  Fuel bounds the loop
by the store size (sufficient on every acyclic state). -/
def walk (s : SkipList) (k : Nat) (lv : Nat) : Nat → Nat → Nat
  | 0, curr => curr
  | fuel + 1, curr =>
      match s.fwd curr lv with
      | some nxt => if keyBelow (s.nodeAt nxt).key k then s.walk k lv fuel nxt else curr
      | none => curr

/-- The `for i in range(self.lvl, -1, -1)` of `_search_helper`: walk
level `lv` from `curr`, record the stop, carry it into level `lv - 1`.
Returns `[u lv, u (lv-1), ..., u 0]`. -/
def updAux (s : SkipList) (k : Nat) : Nat → Nat → List Nat
  | curr, 0 => [s.walk k 0 s.nodes.length curr]
  | curr, lv + 1 =>
      let c := s.walk k (lv + 1) s.nodes.length curr
      c :: s.updAux k c lv

/-- `_search_helper`'s `update` array: entry `i` is the last node
visited before dropping below level `i` (head for the levels above
`self.lvl`, which the loop never touches). -/
def update (s : SkipList) (k : Nat) : List Nat :=
  (s.updAux k 0 s.lvl).reverse ++ List.replicate (s.maxLevels - (s.lvl + 1)) 0

/-- `_randomLevel`: count successive heads, capped at
`max_levels - 1`.  The coin stream is injected; an exhausted stream
reads as tails. -/
def randomLevel (maxLevels : Nat) : List Bool → Nat → Nat
  | [], lv => lv
  | c :: rest, lv =>
      if c && decide (lv < maxLevels - 1) then randomLevel maxLevels rest (lv + 1)
      else lv

/-- Write `forward[lv] = tgt` on node `id` (in-range on the states the
theorems quantify over, as in Python). -/
def setFwd (nds : List skipNode) (id lv : Nat) (tgt : Option Nat) : List skipNode :=
  match nds.get? id with
  | none => nds
  | some n => nds.set id { n with forward := n.forward.set lv tgt }

/-- The splice loop of `add`: for `i in range(levels + 1)`,
`new_node.forward[i] = update[i].forward[i]` then
`update[i].forward[i] = new_node`.  `count` is the number of levels
left, `i` the current level. -/
def spliceGo (newId : Nat) (upd : List Nat) :
    Nat → Nat → List skipNode → List (Option Nat) → List skipNode × List (Option Nat)
  | _, 0, nds, nf => (nds, nf)
  | i, count + 1, nds, nf =>
      let ui := upd.getD i 0
      let un := nds.getD ui ⟨none, none, []⟩
      let nf2 := nf.set i (un.forward.getD i none)
      let nds2 := setFwd nds ui i (some newId)
      spliceGo newId upd (i + 1) count nds2 nf2

/-- `add(key, value)`: no-op when `update[0].forward[0]` already holds
the key; otherwise draw a level, raise `self.lvl`, and splice a fresh
node (appended to the store) into levels `0..levels`. -/
def add (s : SkipList) (k v : Nat) (coins : List Bool) : SkipList :=
  let upd := s.update k
  let hit : Bool := match s.fwd (upd.getD 0 0) 0 with
                    | some t => (s.nodeAt t).key = some k
                    | none => false
  if hit then s
  else
    let levels := randomLevel s.maxLevels coins 0
    let newId := s.nodes.length
    let res := spliceGo newId upd 0 (levels + 1) s.nodes
      (List.replicate (levels + 1) none)
    { maxLevels := s.maxLevels
      lvl := max s.lvl levels
      nodes := res.1 ++ [⟨some k, some v, res.2⟩] }

/-- `search(key)`: probe `update[0].forward[0]`; on a key match return
that node's value, else `None`. -/
def search (s : SkipList) (k : Nat) : Option Nat :=
  let upd := s.update k
  match s.fwd (upd.getD 0 0) 0 with
  | some t => if (s.nodeAt t).key = some k then (s.nodeAt t).value else none
  | none => none

/-- The removal loop of `delete`: for `i in range(self.lvl + 1)`, stop
at the first level whose forward pointer is not `==` to the target —
but `==` is `skipNode.__eq__`, i.e. *value* equality.  On a value
match the write is `update[i].forward[i] = old_node.forward[i]`, and
reading `old_node.forward[i]` above the target's top level raises
`IndexError`. -/
def delGo (o : Nat) (upd : List Nat) :
    Nat → Nat → List skipNode → Except String (List skipNode)
  | _, 0, nds => .ok nds
  | i, count + 1, nds =>
      let ui := upd.getD i 0
      let un := nds.getD ui ⟨none, none, []⟩
      if i < un.forward.length then
        match un.forward.getD i none with
        | some nxt =>
            if (nds.getD nxt ⟨none, none, []⟩).value = (nds.getD o ⟨none, none, []⟩).value then
              if i < (nds.getD o ⟨none, none, []⟩).forward.length then
                delGo o upd (i + 1) count
                  (setFwd nds ui i ((nds.getD o ⟨none, none, []⟩).forward.getD i none))
              else .error "IndexError"
            else .ok nds
        | none => .ok nds
      else .error "IndexError"

/-- `delete(key)`: no-op when `update[0].forward[0]` is absent or keyed
differently, else run the removal loop. -/
def delete (s : SkipList) (k : Nat) : Except String SkipList :=
  let upd := s.update k
  match s.fwd (upd.getD 0 0) 0 with
  | none => .ok s
  | some o =>
      if (s.nodeAt o).key = some k then
        match delGo o upd 0 (s.lvl + 1) s.nodes with
        | .ok nds => .ok { s with nodes := nds }
        | .error e => .error e
      else .ok s

/-- `getMinKey`: `self.head.forward[0].key`; on an empty list the
`None.key` dereference raises `AttributeError`. -/
def getMinKey (s : SkipList) : Except String (Option Nat) :=
  match s.fwd 0 0 with
  | some n => .ok ((s.nodeAt n).key)
  | none => .error "AttributeError"

/-- `getMaxKey`'s loop: follow the current level to its end, drop a
level on a dead end, finish when level 0 is exhausted.  Fuel bounds
the loop by store size plus level count. -/
def maxGo (s : SkipList) : Nat → Nat → Nat → Nat
  | 0, curr, _ => curr
  | fuel + 1, curr, lv =>
      match s.fwd curr lv with
      | some nxt => s.maxGo fuel nxt lv
      | none => if lv = 0 then curr else s.maxGo fuel curr (lv - 1)

/-- `getMaxKey()`: the key of the final node (the head's `-inf` key on
an empty list). -/
def getMaxKey (s : SkipList) : Option Nat :=
  (s.nodeAt (s.maxGo (s.nodes.length + s.lvl + 1) 0 s.lvl)).key

/-- The empty list: a head sentinel with `max_levels` `None` forwards. -/
def empty (maxLevels : Nat) : SkipList :=
  { maxLevels := maxLevels, lvl := 0,
    nodes := [⟨none, none, List.replicate maxLevels none⟩] }

/-- The constructor's `add` loop over zipped keys/values, with one coin
stream per insertion. -/
def build (entries : List (Nat × Nat × List Bool)) (maxLevels : Nat) : SkipList :=
  entries.foldl (fun s e => s.add e.1 e.2.1 e.2.2) (empty maxLevels)

/-- The `max_levels` derivation of `__init__`: a falsy argument
(`None` or `0`) derives `max(1, min(32, ceil(log2(len(keys)))))`;
`math.log(0, 2)` raises `ValueError`.  `Nat.clog 2` is the exact
`ceil(log2 n)` (idealising the float computation `math.log(n, 2)`). -/
def defaultMaxLevels (supplied : Option Nat) (n : Nat) : Except String Nat :=
  if supplied.getD 0 = 0 then
    if n = 0 then .error "ValueError"
    else .ok (max 1 (min 32 (Nat.clog 2 n)))
  else .ok (supplied.getD 0)

/-- `SkipList(keys, values, max_levels)`: derive the level cap, then
`add` every zipped pair. -/
def make (keys values : List Nat) (coinss : List (List Bool))
    (maxLevels : Option Nat) : Except String SkipList :=
  match defaultMaxLevels maxLevels keys.length with
  | .error e => .error e
  | .ok m => .ok (build (keys.zip (values.zip coinss)) m)

/-- `l` is the exact sequence of nodes reached from `c` by following
level-`lv` forward pointers until a `None`. -/
def IsChainFrom (s : SkipList) (lv : Nat) : Nat → List Nat → Prop
  | c, [] => s.fwd c lv = none
  | c, n :: rest => s.fwd c lv = some n ∧ IsChainFrom s lv n rest

/-- The full level-`lv` chain, starting at the head. -/
def IsChain (s : SkipList) (lv : Nat) (l : List Nat) : Prop :=
  IsChainFrom s lv 0 l

/-- A sound member of a level-`lv` chain: a real (non-head) in-range
node carrying a key and a value, whose forward array covers level `lv`
and fits under the level cap. -/
def goodId (s : SkipList) (lv : Nat) (id : Nat) : Prop :=
  0 < id ∧ id < s.nodes.length ∧ (∃ k, (s.nodeAt id).key = some k) ∧
    (∃ w, (s.nodeAt id).value = some w) ∧
    lv < (s.nodeAt id).forward.length ∧ (s.nodeAt id).forward.length ≤ s.maxLevels

/-- Key of a real node (default 0 is never exercised on chain
members, whose keys exist by `goodId`). -/
def keyOf (s : SkipList) (id : Nat) : Nat :=
  ((s.nodeAt id).key).getD 0

/-- The structural invariant of every reachable skip list: a head
sentinel with a full-width forward array, per-level chains of sound
nodes with strictly increasing keys, downward level containment, and
no links above `self.lvl`. -/
structure Inv (s : SkipList) : Prop where
  max_pos : 1 ≤ s.maxLevels
  lvl_lt : s.lvl < s.maxLevels
  head_in : 0 < s.nodes.length
  head_key : (s.nodeAt 0).key = none
  head_len : (s.nodeAt 0).forward.length = s.maxLevels
  chains : ∀ lv, ∃ l, IsChain s lv l ∧ (∀ id ∈ l, goodId s lv id) ∧
    l.Pairwise (fun a b => keyOf s a < keyOf s b)
  contain : ∀ lv l l2, IsChain s (lv + 1) l → IsChain s lv l2 → ∀ id ∈ l, id ∈ l2
  high_none : ∀ lv, s.lvl < lv → s.fwd 0 lv = none

/-- The stop of the predecessor walk on an explicit chain: the last
node of `c :: l` (scanning left to right, stopping at the first
non-below node) whose key is below `k`. -/
def lastBelow (s : SkipList) (k : Nat) : Nat → List Nat → Nat
  | c, [] => c
  | c, n :: rest =>
      if keyBelow (s.nodeAt n).key k then lastBelow s k n rest else c

end SkipList

/-! # Theorems -/

namespace binarySearchTree

theorem cacheOk_node {k v : Nat} {l r : BTree} {h : Nat} :
    cacheOk (.node k v l r h) = true ↔
      h = 1 + max (realH l) (realH r) ∧ cacheOk l = true ∧ cacheOk r = true := by
  simp [cacheOk, Bool.and_eq_true, and_assoc]

theorem balancedOk_node {k v : Nat} {l r : BTree} {h : Nat} :
    balancedOk (.node k v l r h) = true ↔
      ((realH l : Int) - realH r ≤ 1 ∧ (realH r : Int) - realH l ≤ 1) ∧
        balancedOk l = true ∧ balancedOk r = true := by
  simp [balancedOk, Bool.and_eq_true, and_assoc]

theorem cheight_node {k v : Nat} {l r : BTree} {h : Nat} :
    cheight (.node k v l r h) = h := rfl

theorem realH_nil : realH .nil = 0 := rfl

theorem realH_node {k v : Nat} {l r : BTree} {h : Nat} :
    realH (.node k v l r h) = 1 + max (realH l) (realH r) := rfl

theorem cheight_eq {t : BTree} (hc : cacheOk t = true) : cheight t = realH t := by
  cases t with
  | nil => rfl
  | node k v l r h =>
      simp [cheight, realH, (cacheOk_node.mp hc).1]

theorem balInt_node {k v : Nat} {l r : BTree} {h : Nat}
    (hl : cacheOk l = true) (hr : cacheOk r = true) :
    balInt (.node k v l r h) = (realH l : Int) - realH r := by
  simp [balInt, cheight_eq hl, cheight_eq hr]

theorem rotateRight_spec (key val lk lv : Nat) (ll lr r : BTree) (lh h : Nat)
    (hll : cacheOk ll = true) (hlr : cacheOk lr = true) (hr : cacheOk r = true) :
    rotateRight (.node key val (.node lk lv ll lr lh) r h)
      = .node lk lv ll (.node key val lr r (1 + max (realH lr) (realH r)))
          (1 + max (realH ll) (1 + max (realH lr) (realH r))) := by
  simp only [rotateRight, cheight_node]
  rw [cheight_eq hll, cheight_eq hlr, cheight_eq hr]

theorem rotateLeft_spec (key val rk rv : Nat) (l rl rr : BTree) (rh h : Nat)
    (hl : cacheOk l = true) (hrl : cacheOk rl = true) (hrr : cacheOk rr = true) :
    rotateLeft (.node key val l (.node rk rv rl rr rh) h)
      = .node rk rv (.node key val l rl (1 + max (realH l) (realH rl))) rr
          (1 + max (1 + max (realH l) (realH rl)) (realH rr)) := by
  simp only [rotateLeft, cheight_node]
  rw [cheight_eq hl, cheight_eq hrl, cheight_eq hrr]

/-- When the two subtrees differ by at most one, `__rebalance` only
refreshes the cached height. -/
theorem rebalance_no_rot (key val : Nat) (l r : BTree) (h : Nat)
    (hcl : cacheOk l = true) (hcr : cacheOk r = true)
    (h1 : realH l ≤ realH r + 1) (h2 : realH r ≤ realH l + 1) :
    rebalance (.node key val l r h) = .node key val l r (1 + max (realH l) (realH r)) := by
  simp only [rebalance]
  rw [balInt_node hcl hcr]
  have hb1 : ¬ (1 < (realH l : Int) - realH r) := by omega
  have hb2 : ¬ ((realH l : Int) - realH r < -1) := by omega
  simp [hb1, hb2, cheight_eq hcl, cheight_eq hcr]

/-- `__rebalance` on a node whose left subtree stands two above the
right one: both the left-left and the left-right rotation case produce
an AVL-correct subtree of the left subtree's height. -/
theorem rebalance_left_heavy (key val : Nat) (l r : BTree) (h : Nat)
    (hcl : cacheOk l = true) (hbl : balancedOk l = true)
    (hcr : cacheOk r = true) (hbr : balancedOk r = true)
    (hd : realH l = realH r + 2) (hl0 : balInt l ≠ 0) :
    cacheOk (rebalance (.node key val l r h)) = true ∧
    balancedOk (rebalance (.node key val l r h)) = true ∧
    realH (rebalance (.node key val l r h)) = realH l := by
  cases l with
  | nil => rw [realH_nil] at hd; omega
  | node lk lv ll lr lhc =>
    obtain ⟨hlh, hcll, hclr⟩ := cacheOk_node.mp hcl
    obtain ⟨⟨hb1, hb2⟩, hbll, hblr⟩ := balancedOk_node.mp hbl
    rw [balInt_node hcll hclr] at hl0
    have hreal : realH (.node lk lv ll lr lhc) = 1 + max (realH ll) (realH lr) := rfl
    rw [hreal] at hd
    have hstep : rebalance (.node key val (.node lk lv ll lr lhc) r h)
        = if balInt (.node lk lv ll lr lhc) < 0 then
            rotateRight (.node key val (rotateLeft (.node lk lv ll lr lhc)) r
              (1 + max (cheight (.node lk lv ll lr lhc)) (cheight r)))
          else rotateRight (.node key val (.node lk lv ll lr lhc) r
              (1 + max (cheight (.node lk lv ll lr lhc)) (cheight r))) := by
      simp only [rebalance]
      rw [balInt_node hcl hcr]
      have hgt : 1 < (realH (.node lk lv ll lr lhc) : Int) - realH r := by
        rw [hreal, hd]; omega
      simp [hgt]
    rw [hstep, balInt_node hcll hclr]
    by_cases hneg : (realH ll : Int) - realH lr < 0
    · -- left-right case: the left-right grandchild is rotated up
      rw [if_pos hneg]
      cases lr with
      | nil => rw [realH_nil] at hneg; omega
      | node mk mv ml mr mhc =>
        obtain ⟨hmh, hcml, hcmr⟩ := cacheOk_node.mp hclr
        obtain ⟨⟨hm1, hm2⟩, hbml, hbmr⟩ := balancedOk_node.mp hblr
        have hmm : realH (.node mk mv ml mr mhc) = 1 + max (realH ml) (realH mr) := rfl
        rw [hmm] at hd hb1 hb2 hneg
        rw [rotateLeft_spec _ _ _ _ _ _ _ _ _ hcll hcml hcmr]
        have hc1 : cacheOk (.node lk lv ll ml (1 + max (realH ll) (realH ml))) = true :=
          cacheOk_node.mpr ⟨rfl, hcll, hcml⟩
        rw [rotateRight_spec _ _ _ _ _ _ _ _ _ hc1 hcmr hcr]
        refine ⟨?_, ?_, ?_⟩
        · simp [cacheOk_node, realH_node, hcll, hcml, hcmr, hcr]
        · simp only [balancedOk_node, realH_node]
          refine ⟨⟨by omega, by omega⟩, ⟨⟨by omega, by omega⟩, hbll, hbml⟩,
            ⟨by omega, by omega⟩, hbmr, hbr⟩
        · simp only [realH_node, realH_nil]
          omega
    · -- left-left case: a single right rotation
      rw [if_neg hneg]
      rw [rotateRight_spec _ _ _ _ _ _ _ _ _ hcll hclr hcr]
      refine ⟨?_, ?_, ?_⟩
      · simp [cacheOk_node, realH_node, hcll, hclr, hcr]
      · simp only [balancedOk_node, realH_node]
        refine ⟨⟨by omega, by omega⟩, hbll, ⟨by omega, by omega⟩, hblr, hbr⟩
      · simp only [realH_node, realH_nil]
        omega

/-- Mirror image of `rebalance_left_heavy`. -/
theorem rebalance_right_heavy (key val : Nat) (l r : BTree) (h : Nat)
    (hcl : cacheOk l = true) (hbl : balancedOk l = true)
    (hcr : cacheOk r = true) (hbr : balancedOk r = true)
    (hd : realH r = realH l + 2) (hr0 : balInt r ≠ 0) :
    cacheOk (rebalance (.node key val l r h)) = true ∧
    balancedOk (rebalance (.node key val l r h)) = true ∧
    realH (rebalance (.node key val l r h)) = realH r := by
  cases r with
  | nil => rw [realH_nil] at hd; omega
  | node rk rv rl rr rhc =>
    obtain ⟨hrh, hcrl, hcrr⟩ := cacheOk_node.mp hcr
    obtain ⟨⟨hb1, hb2⟩, hbrl, hbrr⟩ := balancedOk_node.mp hbr
    rw [balInt_node hcrl hcrr] at hr0
    have hreal : realH (.node rk rv rl rr rhc) = 1 + max (realH rl) (realH rr) := rfl
    rw [hreal] at hd
    have hstep : rebalance (.node key val l (.node rk rv rl rr rhc) h)
        = if 0 < balInt (.node rk rv rl rr rhc) then
            rotateLeft (.node key val l (rotateRight (.node rk rv rl rr rhc))
              (1 + max (cheight l) (cheight (.node rk rv rl rr rhc))))
          else rotateLeft (.node key val l (.node rk rv rl rr rhc)
              (1 + max (cheight l) (cheight (.node rk rv rl rr rhc)))) := by
      simp only [rebalance]
      rw [balInt_node hcl hcr]
      have hlt : (realH l : Int) - realH (.node rk rv rl rr rhc) < -1 := by
        rw [hreal, hd]; omega
      have hngt : ¬ (1 < (realH l : Int) - realH (.node rk rv rl rr rhc)) := by omega
      simp [hlt, hngt]
    rw [hstep, balInt_node hcrl hcrr]
    by_cases hpos : 0 < (realH rl : Int) - realH rr
    · -- right-left case: the right-left grandchild is rotated up
      rw [if_pos hpos]
      cases rl with
      | nil => rw [realH_nil] at hpos; omega
      | node mk mv ml mr mhc =>
        obtain ⟨hmh, hcml, hcmr⟩ := cacheOk_node.mp hcrl
        obtain ⟨⟨hm1, hm2⟩, hbml, hbmr⟩ := balancedOk_node.mp hbrl
        have hmm : realH (.node mk mv ml mr mhc) = 1 + max (realH ml) (realH mr) := rfl
        rw [hmm] at hd hb1 hb2 hpos
        rw [rotateRight_spec _ _ _ _ _ _ _ _ _ hcml hcmr hcrr]
        have hc1 : cacheOk (.node rk rv mr rr (1 + max (realH mr) (realH rr))) = true :=
          cacheOk_node.mpr ⟨rfl, hcmr, hcrr⟩
        rw [rotateLeft_spec _ _ _ _ _ _ _ _ _ hcl hcml hc1]
        refine ⟨?_, ?_, ?_⟩
        · simp [cacheOk_node, realH_node, hcl, hcml, hcmr, hcrr]
        · simp only [balancedOk_node, realH_node]
          refine ⟨⟨by omega, by omega⟩, ⟨⟨by omega, by omega⟩, hbl, hbml⟩,
            ⟨by omega, by omega⟩, hbmr, hbrr⟩
        · simp only [realH_node, realH_nil]
          omega
    · -- right-right case: a single left rotation
      rw [if_neg hpos]
      rw [rotateLeft_spec _ _ _ _ _ _ _ _ _ hcl hcrl hcrr]
      refine ⟨?_, ?_, ?_⟩
      · simp [cacheOk_node, realH_node, hcl, hcrl, hcrr]
      · simp only [balancedOk_node, realH_node]
        refine ⟨⟨by omega, by omega⟩, ⟨⟨by omega, by omega⟩, hbl, hbrl⟩, hbrr⟩
      · simp only [realH_node, realH_nil]
        omega

/-- The heart of the AVL argument: a successful insert keeps every
cached height correct and every balance factor in `{-1, 0, 1}`, grows
the subtree height by at most one, and a grown subtree of height ≥ 2
is never perfectly balanced at its root. -/
theorem addGo_avl (t : BTree) (k v : Nat) :
    cacheOk t = true → balancedOk t = true →
    ∀ t2, addGo t k v = some t2 →
      (cacheOk t2 = true ∧ balancedOk t2 = true) ∧
      (realH t2 = realH t ∨
        (realH t2 = realH t + 1 ∧ (balInt t2 ≠ 0 ∨ realH t2 = 1))) := by
  induction t with
  | nil =>
      intro _ _ t2 ht2
      simp only [addGo, Option.some.injEq] at ht2
      subst ht2
      refine ⟨⟨by simp [cacheOk, realH], by simp [balancedOk, realH]⟩, ?_⟩
      right
      exact ⟨rfl, Or.inr rfl⟩
  | node key val l r h ihl ihr =>
      intro hc hb t2 ht2
      obtain ⟨hch, hcl, hcr⟩ := cacheOk_node.mp hc
      obtain ⟨⟨hb1, hb2⟩, hbl, hbr⟩ := balancedOk_node.mp hb
      simp only [addGo] at ht2
      by_cases hk : k = key
      · simp [hk] at ht2
      · rw [if_neg hk] at ht2
        by_cases hlt : k < key
        · rw [if_pos hlt] at ht2
          obtain ⟨l2, hl2, rfl⟩ := Option.map_eq_some'.mp ht2
          obtain ⟨⟨hcl2, hbl2⟩, hgrow⟩ := ihl hcl hbl l2 hl2
          rcases hgrow with heq | ⟨hgrow, hbal0⟩
          · -- left child kept its height: no rotation, no growth
            rw [rebalance_no_rot key val l2 r h hcl2 hcr (by omega) (by omega)]
            refine ⟨⟨cacheOk_node.mpr ⟨rfl, hcl2, hcr⟩,
              balancedOk_node.mpr ⟨⟨by omega, by omega⟩, hbl2, hbr⟩⟩, ?_⟩
            left
            simp only [realH_node]
            omega
          · by_cases hcase : realH l2 ≤ realH r + 1
            · -- still within tolerance: no rotation, possible growth
              rw [rebalance_no_rot key val l2 r h hcl2 hcr (by omega) (by omega)]
              refine ⟨⟨cacheOk_node.mpr ⟨rfl, hcl2, hcr⟩,
                balancedOk_node.mpr ⟨⟨by omega, by omega⟩, hbl2, hbr⟩⟩, ?_⟩
              by_cases hge : realH r ≤ realH l
              · right
                have hbint : balInt (.node key val l2 r (1 + max (realH l2) (realH r)))
                    = (realH l2 : Int) - realH r := balInt_node hcl2 hcr
                constructor
                · simp only [realH_node]; omega
                · left; rw [hbint]; omega
              · left
                simp only [realH_node]; omega
            · -- left subtree now stands two above the right: rotate
              have hd2 : realH l2 = realH r + 2 := by omega
              have hbne : balInt l2 ≠ 0 := by
                rcases hbal0 with hne | h1
                · exact hne
                · omega
              obtain ⟨hcres, hbres, hhres⟩ :=
                rebalance_left_heavy key val l2 r h hcl2 hbl2 hcr hbr hd2 hbne
              refine ⟨⟨hcres, hbres⟩, ?_⟩
              left
              rw [hhres]
              simp only [realH_node]
              omega
        · rw [if_neg hlt] at ht2
          obtain ⟨r2, hr2, rfl⟩ := Option.map_eq_some'.mp ht2
          obtain ⟨⟨hcr2, hbr2⟩, hgrow⟩ := ihr hcr hbr r2 hr2
          rcases hgrow with heq | ⟨hgrow, hbal0⟩
          · rw [rebalance_no_rot key val l r2 h hcl hcr2 (by omega) (by omega)]
            refine ⟨⟨cacheOk_node.mpr ⟨rfl, hcl, hcr2⟩,
              balancedOk_node.mpr ⟨⟨by omega, by omega⟩, hbl, hbr2⟩⟩, ?_⟩
            left
            simp only [realH_node]
            omega
          · by_cases hcase : realH r2 ≤ realH l + 1
            · rw [rebalance_no_rot key val l r2 h hcl hcr2 (by omega) (by omega)]
              refine ⟨⟨cacheOk_node.mpr ⟨rfl, hcl, hcr2⟩,
                balancedOk_node.mpr ⟨⟨by omega, by omega⟩, hbl, hbr2⟩⟩, ?_⟩
              by_cases hge : realH l ≤ realH r
              · right
                have hbint : balInt (.node key val l r2 (1 + max (realH l) (realH r2)))
                    = (realH l : Int) - realH r2 := balInt_node hcl hcr2
                constructor
                · simp only [realH_node]; omega
                · left; rw [hbint]; omega
              · left
                simp only [realH_node]; omega
            · have hd2 : realH r2 = realH l + 2 := by omega
              have hbne : balInt r2 ≠ 0 := by
                rcases hbal0 with hne | h1
                · exact hne
                · omega
              obtain ⟨hcres, hbres, hhres⟩ :=
                rebalance_right_heavy key val l r2 h hcl hbl hcr2 hbr2 hd2 hbne
              refine ⟨⟨hcres, hbres⟩, ?_⟩
              left
              rw [hhres]
              simp only [realH_node]
              omega

/-- `add` preserves the AVL invariant (dup-key calls leave the tree
untouched). -/
theorem add_avl (t : BTree) (k v : Nat) (hc : cacheOk t = true)
    (hb : balancedOk t = true) :
    cacheOk (add t k v) = true ∧ balancedOk (add t k v) = true := by
  unfold add
  cases hgo : addGo t k v with
  | none => exact ⟨hc, hb⟩
  | some t2 => exact (addGo_avl t k v hc hb t2 hgo).1

theorem inorder_rotateLeft (t : BTree) : inorder (rotateLeft t) = inorder t := by
  cases t with
  | nil => rfl
  | node k v l r h =>
      cases r with
      | nil => rfl
      | node rk rv rl rr rh => simp [rotateLeft, inorder]

theorem inorder_rotateRight (t : BTree) : inorder (rotateRight t) = inorder t := by
  cases t with
  | nil => rfl
  | node k v l r h =>
      cases l with
      | nil => rfl
      | node lk lv ll lr lh => simp [rotateRight, inorder]

theorem inorder_rebalance (t : BTree) : inorder (rebalance t) = inorder t := by
  cases t with
  | nil => rfl
  | node k v l r h =>
      simp only [rebalance]
      split_ifs <;>
        simp [inorder_rotateLeft, inorder_rotateRight, inorder]

theorem hasKey_iff (t : BTree) (k : Nat) :
    hasKey t k = true ↔ k ∈ (inorder t).map Prod.fst := by
  induction t with
  | nil => simp [hasKey, inorder]
  | node key val l r h ihl ihr =>
      simp only [hasKey, inorder, Bool.or_eq_true, decide_eq_true_eq,
        List.map_append, List.map_cons, List.mem_append, List.mem_cons, ihl, ihr]
      constructor
      · rintro ((rfl | h2) | h3)
        · exact Or.inr (Or.inl rfl)
        · exact Or.inl h2
        · exact Or.inr (Or.inr h3)
      · rintro (h1 | rfl | h3)
        · exact Or.inl (Or.inr h1)
        · exact Or.inl (Or.inl rfl)
        · exact Or.inr h3

theorem mem_insKV {p : Nat × Nat} {k v : Nat} (l : List (Nat × Nat)) :
    p ∈ insKV k v l ↔ p = (k, v) ∨ p ∈ l := by
  induction l with
  | nil => simp [insKV]
  | cons a rest ih =>
      obtain ⟨a1, a2⟩ := a
      simp only [insKV]
      split_ifs with hlt
      · simp
      · simp [ih, or_comm, or_assoc, or_left_comm]

theorem insKV_pairwise {k v : Nat} {l : List (Nat × Nat)}
    (hs : l.Pairwise fun a b => a.1 < b.1) (hk : k ∉ l.map Prod.fst) :
    (insKV k v l).Pairwise fun a b => a.1 < b.1 := by
  induction l with
  | nil => simp [insKV]
  | cons a rest ih =>
      obtain ⟨a1, a2⟩ := a
      obtain ⟨ha, hrest⟩ := List.pairwise_cons.mp hs
      simp only [List.map_cons, List.mem_cons] at hk
      push_neg at hk
      obtain ⟨hka, hkrest⟩ := hk
      simp only [insKV]
      split_ifs with hlt
      · refine List.pairwise_cons.mpr ⟨?_, hs⟩
        intro b hb
        rcases List.mem_cons.mp hb with rfl | hbm
        · exact hlt
        · exact lt_trans hlt (ha b hbm)
      · refine List.pairwise_cons.mpr ⟨?_, ih hrest hkrest⟩
        intro b hb
        rcases (mem_insKV rest).mp hb with rfl | hbm
        · simp only []
          omega
        · exact ha b hbm

theorem insKV_append_left {k v : Nat} (xs : List (Nat × Nat)) (a b : Nat)
    (ys : List (Nat × Nat)) (h : k < a) :
    insKV k v (xs ++ (a, b) :: ys) = insKV k v xs ++ (a, b) :: ys := by
  induction xs with
  | nil => simp [insKV, h]
  | cons x rest ih =>
      obtain ⟨x1, x2⟩ := x
      simp only [List.cons_append, insKV]
      split_ifs with hlt
      · rfl
      · simp [ih]

theorem insKV_node_right {k v : Nat} (xs : List (Nat × Nat)) (a b : Nat)
    (ys : List (Nat × Nat)) (hxs : ∀ p ∈ xs, p.1 < k) (ha : a < k) :
    insKV k v (xs ++ (a, b) :: ys) = xs ++ (a, b) :: insKV k v ys := by
  induction xs with
  | nil => simp only [List.nil_append, insKV]
           rw [if_neg (by omega)]
  | cons x rest ih =>
      obtain ⟨x1, x2⟩ := x
      have hx1 : x1 < k := hxs (x1, x2) (List.mem_cons_self _ _)
      have ih2 := ih fun p hp => hxs p (List.mem_cons_of_mem _ hp)
      simp only [List.cons_append, insKV]
      rw [if_neg (by omega)]
      exact congrArg (List.cons (x1, x2)) ih2

/-- A successful `add` descent inserts the fresh pair into the
in-order listing at its sorted position; the `None` early return
happens exactly when the key is already present. -/
theorem addGo_inorder (t : BTree) (k v : Nat) (ho : Ordered t) :
    (addGo t k v = none ∧ k ∈ (inorder t).map Prod.fst) ∨
    (∃ t2, addGo t k v = some t2 ∧ inorder t2 = insKV k v (inorder t) ∧
      k ∉ (inorder t).map Prod.fst) := by
  induction t with
  | nil =>
      right
      exact ⟨_, rfl, rfl, by simp [inorder]⟩
  | node key val l r h ihl ihr =>
      have hol : Ordered l := by
        have := (List.pairwise_append.mp ho).1
        exact this
      have horc := (List.pairwise_append.mp ho).2.1
      have hor : Ordered r := (List.pairwise_cons.mp horc).2
      have hkeyr : ∀ p ∈ inorder r, key < p.1 := by
        intro p hp
        exact (List.pairwise_cons.mp horc).1 p hp
      have hcross : ∀ p ∈ inorder l, p.1 < key := by
        intro p hp
        exact (List.pairwise_append.mp ho).2.2 p hp (key, val) (List.mem_cons_self _ _)
      by_cases hk : k = key
      · left
        constructor
        · simp [addGo, hk]
        · subst hk
          simp [inorder]
      · by_cases hlt : k < key
        · rcases ihl hol with ⟨hnone, hmem⟩ | ⟨l2, hl2, hino, hmem⟩
          · left
            constructor
            · simp [addGo, hk, hlt, hnone]
            · simp only [inorder, List.map_append, List.map_cons]
              exact List.mem_append.mpr (Or.inl hmem)
          · right
            refine ⟨rebalance (.node key val l2 r h), ?_, ?_, ?_⟩
            · simp [addGo, hk, hlt, hl2]
            · rw [inorder_rebalance]
              simp only [inorder]
              rw [hino, insKV_append_left _ key val _ hlt]
            · simp only [inorder, List.map_append, List.map_cons, List.mem_append,
                List.mem_cons]
              push_neg
              refine ⟨hmem, hk, ?_⟩
              intro hmr
              rcases List.mem_map.mp hmr with ⟨p, hp, hpk⟩
              have := hkeyr p hp
              omega
        · have hgt : key < k := by omega
          rcases ihr hor with ⟨hnone, hmem⟩ | ⟨r2, hr2, hino, hmem⟩
          · left
            constructor
            · simp [addGo, hk, hlt, hnone]
            · simp only [inorder, List.map_append, List.map_cons]
              refine List.mem_append.mpr (Or.inr ?_)
              exact List.mem_cons_of_mem _ hmem
          · right
            refine ⟨rebalance (.node key val l r2 h), ?_, ?_, ?_⟩
            · simp [addGo, hk, hlt, hr2]
            · rw [inorder_rebalance]
              simp only [inorder]
              have hcross2 : ∀ p ∈ inorder l, p.1 < k :=
                fun p hp => lt_trans (hcross p hp) hgt
              rw [hino, insKV_node_right _ key val _ hcross2 hgt]
            · simp only [inorder, List.map_append, List.map_cons, List.mem_append,
                List.mem_cons]
              push_neg
              refine ⟨?_, hk, hmem⟩
              intro hml
              rcases List.mem_map.mp hml with ⟨p, hp, hpk⟩
              have := hcross p hp
              omega

theorem Ordered_add (t : BTree) (k v : Nat) (ho : Ordered t) : Ordered (add t k v) := by
  unfold add
  rcases addGo_inorder t k v ho with ⟨hnone, _⟩ | ⟨t2, ht2, hino, hmem⟩
  · rw [hnone]; exact ho
  · rw [ht2]
    simp only [Option.getD_some]
    unfold Ordered
    rw [hino]
    exact insKV_pairwise ho hmem

theorem Ordered_build (keys values : List Nat) : Ordered (build keys values) := by
  unfold build
  suffices h : ∀ (kvs : List (Nat × Nat)) (t : BTree), Ordered t →
      Ordered (kvs.foldl (fun t kv => add t kv.1 kv.2) t) by
    exact h _ .nil (by simp [Ordered, inorder])
  intro kvs
  induction kvs with
  | nil => exact fun t h => h
  | cons kv rest ih => exact fun t h => ih _ (Ordered_add t kv.1 kv.2 h)

/-- Under the ordering invariant, the `search` loop finds exactly the
in-order listing's binding: it returns the node holding the key (whose
key/value pair is the binding), or `None`. -/
theorem searchNode_eq (t : BTree) (k : Nat) (ho : Ordered t) :
    (searchNode t k).map (fun n => (nodeKey n, nodeValue n))
      = (inorder t).find? (fun p => p.1 = k) := by
  induction t with
  | nil => simp [searchNode, inorder]
  | node key val l r h ihl ihr =>
      have hol : Ordered l := (List.pairwise_append.mp ho).1
      have horc := (List.pairwise_append.mp ho).2.1
      have hor : Ordered r := (List.pairwise_cons.mp horc).2
      have hkeyr : ∀ p ∈ inorder r, key < p.1 :=
        fun p hp => (List.pairwise_cons.mp horc).1 p hp
      have hcross : ∀ p ∈ inorder l, p.1 < key :=
        fun p hp => (List.pairwise_append.mp ho).2.2 p hp (key, val)
          (List.mem_cons_self _ _)
      simp only [inorder, List.find?_append]
      by_cases hk : key = k
      · subst hk
        have hlnone : (inorder l).find? (fun p => p.1 = key) = none := by
          rw [List.find?_eq_none]
          intro p hp
          have := hcross p hp
          simp only [decide_eq_true_eq]
          omega
        rw [hlnone, List.find?_cons_of_pos _ (by simp)]
        simp [searchNode, nodeKey, nodeValue]
      · by_cases hlt : k < key
        · have hrnone : ((key, val) :: inorder r).find? (fun p => p.1 = k) = none := by
            rw [List.find?_eq_none]
            intro p hp
            rcases List.mem_cons.mp hp with rfl | hpm
            · simp only [decide_eq_true_eq]
              omega
            · have := hkeyr p hpm
              simp only [decide_eq_true_eq]
              omega
          rw [hrnone]
          have hsn : searchNode (.node key val l r h) k = searchNode l k := by
            simp [searchNode, hk, hlt, Ne.symm hk]
          rw [hsn, ihl hol, Option.or_none]
        · have hgt : key < k := by omega
          have hlnone : (inorder l).find? (fun p => p.1 = k) = none := by
            rw [List.find?_eq_none]
            intro p hp
            have := hcross p hp
            simp only [decide_eq_true_eq]
            omega
          rw [hlnone, Option.none_or,
            List.find?_cons_of_neg _ (by simp; omega)]
          have hsn : searchNode (.node key val l r h) k = searchNode r k := by
            simp [searchNode, hk, hlt, Ne.symm hk]
          rw [hsn, ihr hor]

theorem find?_insKV_self {k v : Nat} {l : List (Nat × Nat)}
    (hk : k ∉ l.map Prod.fst) :
    (insKV k v l).find? (fun p => p.1 = k) = some (k, v) := by
  induction l with
  | nil => simp [insKV]
  | cons a rest ih =>
      obtain ⟨a1, a2⟩ := a
      simp only [List.map_cons, List.mem_cons] at hk
      push_neg at hk
      obtain ⟨hka, hkrest⟩ := hk
      simp only [insKV]
      split_ifs with hlt
      · exact List.find?_cons_of_pos _ (by simp)
      · rw [List.find?_cons_of_neg _ (by simp; omega)]
        exact ih hkrest

theorem find?_insKV_other {k k' v : Nat} {l : List (Nat × Nat)} (hne : k' ≠ k) :
    (insKV k v l).find? (fun p => p.1 = k') = l.find? (fun p => p.1 = k') := by
  induction l with
  | nil => simp [insKV, Ne.symm hne]
  | cons a rest ih =>
      obtain ⟨a1, a2⟩ := a
      simp only [insKV]
      split_ifs with hlt
      · rw [List.find?_cons_of_neg _ (by simp; omega)]
      · by_cases ha : a1 = k'
        · subst ha
          rw [List.find?_cons_of_pos _ (by simp), List.find?_cons_of_pos _ (by simp)]
        · rw [List.find?_cons_of_neg _ (by simp [ha]),
            List.find?_cons_of_neg _ (by simp [ha]), ih]

/-- `add` of a fresh key followed by `search` of that key yields the
node holding exactly that key and value. -/
theorem add_search_self (t : BTree) (k v : Nat) (ho : Ordered t)
    (hk : hasKey t k = false) :
    (searchNode (add t k v) k).map (fun n => (nodeKey n, nodeValue n))
      = some (k, v) := by
  have hmem : k ∉ (inorder t).map Prod.fst := by
    intro hm
    rw [(hasKey_iff t k).mpr hm] at hk
    simp at hk
  unfold add
  rcases addGo_inorder t k v ho with ⟨_, hmem2⟩ | ⟨t2, ht2, hino, _⟩
  · exact absurd hmem2 hmem
  · rw [ht2]
    simp only [Option.getD_some]
    have ho2 : Ordered t2 := by
      unfold Ordered
      rw [hino]
      exact insKV_pairwise ho hmem
    rw [searchNode_eq t2 k ho2, hino, find?_insKV_self hmem]

/-- Adding a different key never disturbs `search` of `k`. -/
theorem add_search_other (t : BTree) (k k' v : Nat) (ho : Ordered t)
    (hne : k ≠ k') :
    (searchNode (add t k' v) k).map (fun n => (nodeKey n, nodeValue n))
      = (searchNode t k).map (fun n => (nodeKey n, nodeValue n)) := by
  unfold add
  rcases addGo_inorder t k' v ho with ⟨hnone, _⟩ | ⟨t2, ht2, hino, hmem⟩
  · rw [hnone]; rfl
  · rw [ht2]
    simp only [Option.getD_some]
    have ho2 : Ordered t2 := by
      unfold Ordered
      rw [hino]
      exact insKV_pairwise ho hmem
    rw [searchNode_eq t2 k ho2, hino, find?_insKV_other hne, searchNode_eq t k ho]

/-- Adding an already-present key is a complete no-op. -/
theorem add_dup (t : BTree) (k v : Nat) (ho : Ordered t)
    (hk : hasKey t k = true) : add t k v = t := by
  unfold add
  rcases addGo_inorder t k v ho with ⟨hnone, _⟩ | ⟨t2, ht2, _, hmem⟩
  · rw [hnone]; rfl
  · exact absurd ((hasKey_iff t k).mp hk) hmem

/-- `search` after a bulk of `add`s: the tree's own binding wins,
else the first occurrence in the added sequence. -/
theorem foldAdd_search (kvs : List (Nat × Nat)) (k : Nat) :
    ∀ t : BTree, Ordered t →
      (searchNode (kvs.foldl (fun t kv => add t kv.1 kv.2) t) k).map
          (fun n => (nodeKey n, nodeValue n))
        = ((searchNode t k).map (fun n => (nodeKey n, nodeValue n))).or
            ((kvs.find? (fun p => p.1 = k)).map (fun p => (k, p.2))) := by
  induction kvs with
  | nil => intro t _; simp
  | cons kv rest ih =>
      obtain ⟨k1, v1⟩ := kv
      intro t ho
      rw [List.foldl_cons]
      rw [ih _ (Ordered_add t k1 v1 ho)]
      by_cases hk1 : k1 = k
      · subst hk1
        cases hhk : hasKey t k1 with
        | true =>
            rw [add_dup t k1 v1 ho hhk]
            have hsome : ∃ p, (inorder t).find? (fun p => p.1 = k1) = some p := by
              have hmem := (hasKey_iff t k1).mp hhk
              rcases List.mem_map.mp hmem with ⟨p, hp, hpk⟩
              have : ((inorder t).find? (fun p => p.1 = k1)).isSome := by
                rw [List.find?_isSome]
                exact ⟨p, hp, by simp [hpk]⟩
              exact Option.isSome_iff_exists.mp this
            obtain ⟨p, hp⟩ := hsome
            rw [searchNode_eq t k1 ho, hp]
            simp [Option.or]
        | false =>
            rw [add_search_self t k1 v1 ho hhk]
            rw [searchNode_eq t k1 ho]
            have hnone : (inorder t).find? (fun p => p.1 = k1) = none := by
              rw [List.find?_eq_none]
              intro p hp
              simp only [decide_eq_true_eq]
              intro hpk
              have : k1 ∈ (inorder t).map Prod.fst := List.mem_map.mpr ⟨p, hp, hpk⟩
              rw [(hasKey_iff t k1).mpr this] at hhk
              simp at hhk
            rw [hnone, List.find?_cons_of_pos _ (by simp)]
            simp [Option.or]
      · rw [add_search_other t k k1 v1 ho (Ne.symm hk1)]
        rw [List.find?_cons_of_neg _ (by simp [hk1])]

theorem build_search (keys values : List Nat) (k : Nat) :
    (searchNode (build keys values) k).map (fun n => (nodeKey n, nodeValue n))
      = ((keys.zip values).find? (fun p => p.1 = k)).map (fun p => (k, p.2)) := by
  unfold build
  rw [foldAdd_search _ k .nil (by simp [Ordered, inorder])]
  simp [searchNode]

/-- Every constructed tree satisfies the AVL invariant. -/
theorem build_avl (keys values : List Nat) :
    cacheOk (build keys values) = true ∧ balancedOk (build keys values) = true := by
  unfold build
  suffices h : ∀ (kvs : List (Nat × Nat)) (t : BTree),
      cacheOk t = true → balancedOk t = true →
      cacheOk (kvs.foldl (fun t kv => add t kv.1 kv.2) t) = true ∧
      balancedOk (kvs.foldl (fun t kv => add t kv.1 kv.2) t) = true by
    exact h (keys.zip values) .nil rfl rfl
  intro kvs
  induction kvs with
  | nil => intro t hc hb; exact ⟨hc, hb⟩
  | cons kv rest ih =>
      intro t hc hb
      obtain ⟨hc2, hb2⟩ := add_avl t kv.1 kv.2 hc hb
      exact ih _ hc2 hb2

end binarySearchTree

/-- **C3** — After every `add` on an AVL tree (in particular along any
construction), every node's cached height field equals
`1 + max(height(left), height(right))` (0 for an absent child:
`cacheOk`) and every node's balance factor lies in `{-1, 0, 1}`
(`balancedOk`), maintained by the bottom-up rebalance walk with the
four-case rotation repair. -/
theorem C3_avl_invariant :
    (∀ (t : BTree) (k v : Nat),
      binarySearchTree.cacheOk t = true → binarySearchTree.balancedOk t = true →
      binarySearchTree.cacheOk (binarySearchTree.add t k v) = true ∧
      binarySearchTree.balancedOk (binarySearchTree.add t k v) = true) ∧
    (∀ keys values : List Nat,
      binarySearchTree.cacheOk (binarySearchTree.build keys values) = true ∧
      binarySearchTree.balancedOk (binarySearchTree.build keys values) = true) :=
  ⟨binarySearchTree.add_avl, binarySearchTree.build_avl⟩

/-- Witness for C3: the spec's concrete scenario, the AVL tree built
from keys `[5,3,8,1,4,7,9,2,6]`, then one more insertion. -/
theorem C3_avl_invariant_witness :
    binarySearchTree.cacheOk
      (binarySearchTree.add
        (binarySearchTree.build [5, 3, 8, 1, 4, 7, 9, 2, 6] [5, 3, 8, 1, 4, 7, 9, 2, 6])
        10 10) = true ∧
    binarySearchTree.balancedOk
      (binarySearchTree.add
        (binarySearchTree.build [5, 3, 8, 1, 4, 7, 9, 2, 6] [5, 3, 8, 1, 4, 7, 9, 2, 6])
        10 10) = true :=
  C3_avl_invariant.1 _ 10 10 (by decide) (by decide)

namespace LAT

theorem dictGet_dictSet_self (k v : Nat) (l : List (Nat × Nat)) :
    dictGet (dictSet k v l) k = some v := by
  induction l with
  | nil => simp [dictSet, dictGet]
  | cons a rest ih =>
      obtain ⟨a1, a2⟩ := a
      simp only [dictSet]
      split_ifs with ha
      · simp [dictGet]
      · simp only [dictGet, List.find?_cons]
        have hd : (decide (a1 = k)) = false := by simp [ha]
        rw [hd]
        exact ih

theorem dictGet_dictSet_other (k k2 v : Nat) (l : List (Nat × Nat)) (hne : k ≠ k2) :
    dictGet (dictSet k2 v l) k = dictGet l k := by
  induction l with
  | nil => simp [dictSet, dictGet, Ne.symm hne]
  | cons a rest ih =>
      obtain ⟨a1, a2⟩ := a
      simp only [dictSet]
      split_ifs with ha
      · subst ha
        simp only [dictGet, List.find?_cons]
        have hd : (decide (a1 = k)) = false := by simp; omega
        rw [hd]
      · simp only [dictGet, List.find?_cons]
        cases hdk : (decide (a1 = k)) with
        | true => rfl
        | false => exact ih

theorem childGet_childSet_self (d : Nat) (c : LatNode) (l : List (Nat × LatNode)) :
    childGet (childSet d c l) d = some c := by
  induction l with
  | nil => simp [childSet, childGet]
  | cons a rest ih =>
      obtain ⟨a1, a2⟩ := a
      simp only [childSet]
      split_ifs with ha
      · simp [childGet]
      · simp only [childGet, List.find?_cons]
        have hd : (decide (a1 = d)) = false := by simp [ha]
        rw [hd]
        exact ih

theorem childGet_childSet_other (d d2 : Nat) (c : LatNode) (l : List (Nat × LatNode))
    (hne : d ≠ d2) : childGet (childSet d2 c l) d = childGet l d := by
  induction l with
  | nil => simp [childSet, childGet, Ne.symm hne]
  | cons a rest ih =>
      obtain ⟨a1, a2⟩ := a
      simp only [childSet]
      split_ifs with ha
      · subst ha
        simp only [childGet, List.find?_cons]
        have hd : (decide (a1 = d)) = false := by simp; omega
        rw [hd]
      · simp only [childGet, List.find?_cons]
        cases hdk : (decide (a1 = d)) with
        | true => rfl
        | false => exact ih

theorem wf_of_wfL {l : List (Nat × LatNode)} {h : Nat} (hw : wfL l h = true) :
    ∀ p ∈ l, wf p.2 h = true := by
  induction l with
  | nil => simp
  | cons a rest ih =>
      simp only [wfL, Bool.and_eq_true] at hw
      intro p hp
      rcases List.mem_cons.mp hp with rfl | hpm
      · exact hw.1
      · exact ih hw.2 p hpm

theorem wfL_childSet {l : List (Nat × LatNode)} {h d : Nat} {c : LatNode}
    (hw : wfL l h = true) (hc : wf c h = true) : wfL (childSet d c l) h = true := by
  induction l with
  | nil => simp [childSet, wfL, hc]
  | cons a rest ih =>
      obtain ⟨a1, a2⟩ := a
      simp only [wfL, Bool.and_eq_true] at hw
      simp only [childSet]
      split_ifs with ha
      · simp only [wfL, Bool.and_eq_true]
        exact ⟨hc, hw.2⟩
      · simp only [wfL, Bool.and_eq_true]
        exact ⟨hw.1, ih hw.2⟩

theorem childGet_wf {l : List (Nat × LatNode)} {h d : Nat} {c : LatNode}
    (hw : wfL l h = true) (hg : childGet l d = some c) : wf c h = true := by
  unfold childGet at hg
  rcases Option.map_eq_some'.mp hg with ⟨p, hp, hpc⟩
  exact hpc ▸ wf_of_wfL hw p (List.mem_of_find?_eq_some hp)

/-- Round trip at the node level: storing `k → v` along a full-length
path through a well-formed subtree and searching the same path finds
`v` (the leaf dict silently overwrites, so no freshness is needed). -/
theorem lat_searchGo_addGo_self (k v : Nat) : ∀ (path : List Nat) (n : LatNode),
    path ≠ [] → wf n path.length = true →
    searchGo k (addGo k v n path) path = some v := by
  intro path
  induction path with
  | nil => intro n hne _; exact absurd rfl hne
  | cons d rest ih =>
      intro n _ hwf
      cases n with
      | leaf data => simp [wf] at hwf
      | index ptrs =>
          cases rest with
          | nil =>
              simp only [List.length_cons, List.length_nil] at hwf
              simp only [wf] at hwf
              simp only [addGo]
              have hcl : ∀ c, childGet ptrs d = some c → ∃ data2, c = .leaf data2 := by
                intro c hc
                have := childGet_wf hwf hc
                cases c with
                | leaf data2 => exact ⟨data2, rfl⟩
                | index p2 => simp [wf] at this
              cases hc : childGet ptrs d with
              | none =>
                  simp only [hc]
                  simp only [searchGo, childGet_childSet_self]
                  exact dictGet_dictSet_self k v []
              | some c =>
                  obtain ⟨data2, rfl⟩ := hcl c hc
                  simp only [hc]
                  simp only [searchGo, childGet_childSet_self]
                  exact dictGet_dictSet_self k v data2
          | cons d2 rest2 =>
              simp only [List.length_cons] at hwf
              simp only [wf] at hwf
              simp only [addGo]
              cases hc : childGet ptrs d with
              | none =>
                  simp only [hc]
                  simp only [searchGo, childGet_childSet_self]
                  exact ih (.index []) (by simp) (by simp [wf, wfL])
              | some c =>
                  simp only [hc]
                  simp only [searchGo, childGet_childSet_self]
                  exact ih c (by simp) (childGet_wf hwf hc)

/-- Adding into a freshly created empty subtree never makes another
key findable. -/
theorem searchGo_addGo_empty (k k2 v : Nat) : ∀ (p2 p : List Nat) (d : Nat),
    p2.length = p.length → k ≠ k2 →
    searchGo k (addGo k2 v (.index []) p2) p = none := by
  intro p2
  induction p2 with
  | nil =>
      intro p d hlen _
      have : p = [] := List.length_eq_zero.mp hlen.symm
      subst this
      simp [addGo, searchGo]
  | cons d2 r2 ih =>
      intro p d hlen hne
      cases p with
      | nil => simp at hlen
      | cons d1 r1 =>
          simp only [List.length_cons, Nat.succ.injEq] at hlen
          cases r2 with
          | nil =>
              have : r1 = [] := List.length_eq_zero.mp hlen.symm
              subst this
              simp only [addGo]
              by_cases hd : d1 = d2
              · subst hd
                simp only [searchGo, childGet_childSet_self]
                rw [show dictSet k2 v [] = [(k2, v)] from rfl]
                have hdec : (decide (k2 = k)) = false := by simp [Ne.symm hne]
                simp [dictGet, List.find?_cons, hdec]
              · simp only [searchGo]
                rw [childGet_childSet_other _ _ _ _ hd]
                simp [childGet]
          | cons d2b r2b =>
              cases r1 with
              | nil => simp at hlen
              | cons d1b r1b =>
                  simp only [addGo]
                  by_cases hd : d1 = d2
                  · subst hd
                    simp only [searchGo, childGet_childSet_self]
                    exact ih (d1b :: r1b) d1 hlen hne
                  · simp only [searchGo]
                    rw [childGet_childSet_other _ _ _ _ hd]
                    simp [childGet]

/-- Adding one key never disturbs the search for a different key (even
through leaf aliasing, since the leaf dict is keyed by the full key). -/
theorem lat_searchGo_addGo_other (k k2 v : Nat) : ∀ (p2 p : List Nat) (n : LatNode),
    p2.length = p.length → k ≠ k2 →
    searchGo k (addGo k2 v n p2) p = searchGo k n p := by
  intro p2
  induction p2 with
  | nil => intro p n _ _; cases n <;> rfl
  | cons d2 r2 ih =>
      intro p n hlen hne
      cases p with
      | nil => simp at hlen
      | cons d1 r1 =>
          cases n with
          | leaf data => rfl
          | index ptrs =>
              simp only [List.length_cons, Nat.succ.injEq] at hlen
              cases r2 with
              | nil =>
                  have hr1 : r1 = [] := List.length_eq_zero.mp hlen.symm
                  subst hr1
                  simp only [addGo]
                  by_cases hd : d1 = d2
                  · subst hd
                    cases hc : childGet ptrs d1 with
                    | none =>
                        simp only [hc, searchGo, childGet_childSet_self]
                        rw [show dictSet k2 v [] = [(k2, v)] from rfl]
                        have hdec : (decide (k2 = k)) = false := by simp [Ne.symm hne]
                        simp [dictGet, List.find?_cons, hdec, childGet]
                    | some c =>
                        cases c with
                        | leaf data =>
                            simp only [hc, searchGo, childGet_childSet_self]
                            rw [dictGet_dictSet_other k k2 v data hne]
                        | index p2i =>
                            simp only [hc, searchGo, childGet_childSet_self]
                  · cases hc : childGet ptrs d2 with
                    | none =>
                        simp only [hc, searchGo]
                        rw [childGet_childSet_other _ _ _ _ hd]
                    | some c =>
                        cases c with
                        | leaf data =>
                            simp only [hc, searchGo]
                            rw [childGet_childSet_other _ _ _ _ hd]
                        | index p2i =>
                            simp only [hc, searchGo]
                            rw [childGet_childSet_other _ _ _ _ hd]
              | cons d2b r2b =>
                  simp only [addGo]
                  by_cases hd : d1 = d2
                  · subst hd
                    cases hc : childGet ptrs d1 with
                    | none =>
                        simp only [hc, searchGo, childGet_childSet_self]
                        exact searchGo_addGo_empty k k2 v (d2b :: r2b) r1 d1 hlen hne
                    | some c =>
                        simp only [hc, searchGo, childGet_childSet_self]
                        exact ih r1 c hlen hne
                  · simp only [searchGo]
                    rw [childGet_childSet_other _ _ _ _ hd]

theorem wf_addGo (k v : Nat) : ∀ (path : List Nat) (n : LatNode),
    wf n path.length = true → wf (addGo k v n path) path.length = true := by
  intro path
  induction path with
  | nil => intro n hw; cases n <;> exact hw
  | cons d rest ih =>
      intro n hw
      cases n with
      | leaf data => simp [wf] at hw
      | index ptrs =>
          simp only [List.length_cons, wf] at hw ⊢
          cases rest with
          | nil =>
              simp only [addGo]
              cases hc : childGet ptrs d with
              | none => exact wfL_childSet hw rfl
              | some c =>
                  have hcw := childGet_wf hw hc
                  cases c with
                  | leaf data2 => exact wfL_childSet hw rfl
                  | index p2 => simp [wf] at hcw
          | cons d2 rest2 =>
              simp only [addGo]
              cases hc : childGet ptrs d with
              | none =>
                  exact wfL_childSet hw (ih (.index []) (by simp [wf, wfL]))
              | some c =>
                  exact wfL_childSet hw (ih c (childGet_wf hw hc))

theorem keyConversion_length (radix : Nat) : ∀ (h k : Nat),
    (keyConversion radix h k).length = h := by
  intro h
  induction h with
  | zero => intro k; rfl
  | succ h2 ih =>
      intro k
      simp [keyConversion, ih]

theorem lat_add_radix (t : LAT) (k v : Nat) : (t.add k v).radix = t.radix := rfl

theorem add_height (t : LAT) (k v : Nat) : (t.add k v).height = t.height := rfl

/-- Structure-level round trip: `add` then `search` of the same key. -/
theorem lat_add_search_self (t : LAT) (k v : Nat) (hh : t.height ≠ 0)
    (hwf : wf t.root t.height = true) : (t.add k v).search k = some v := by
  unfold add search
  simp only
  have hlen : (keyConversion t.radix t.height k).length = t.height :=
    keyConversion_length _ _ _
  have hne : keyConversion t.radix t.height k ≠ [] := by
    intro he
    rw [he] at hlen
    exact hh hlen.symm
  rw [← hlen] at hwf
  exact lat_searchGo_addGo_self k v _ t.root hne hwf

/-- Structure-level frame: adding a different key never disturbs
`search`. -/
theorem lat_add_search_other (t : LAT) (k k2 v : Nat) (hne : k ≠ k2) :
    (t.add k2 v).search k = t.search k := by
  unfold add search
  simp only
  exact lat_searchGo_addGo_other k k2 v _ _ t.root
    (by rw [keyConversion_length, keyConversion_length]) hne

theorem wf_add (t : LAT) (k v : Nat) (hwf : wf t.root t.height = true) :
    wf (t.add k v).root (t.add k v).height = true := by
  rw [add_height]
  show wf (addGo k v t.root (keyConversion t.radix t.height k)) t.height = true
  have h2 := wf_addGo k v (keyConversion t.radix t.height k) t.root
    (by rw [keyConversion_length]; exact hwf)
  rw [keyConversion_length] at h2
  exact h2

/-- `search` over a bulk of `add`s: the *latest* binding for a key
wins (leaf-level dict overwrite), falling back to the original tree. -/
theorem lat_foldAdd_search (kvs : List (Nat × Nat)) (k : Nat) :
    ∀ t : LAT, t.height ≠ 0 → wf t.root t.height = true →
      (kvs.foldl (fun t kv => t.add kv.1 kv.2) t).search k
        = ((kvs.reverse.find? (fun p => p.1 = k)).map (fun p => p.2)).or (t.search k) := by
  induction kvs with
  | nil => intro t _ _; simp
  | cons kv rest ih =>
      obtain ⟨k1, v1⟩ := kv
      intro t hh hwf
      rw [List.foldl_cons]
      rw [ih _ (by rw [add_height]; exact hh) (wf_add t k1 v1 hwf)]
      rw [List.reverse_cons, List.find?_append]
      by_cases hk1 : k1 = k
      · subst hk1
        rw [lat_add_search_self t k1 v1 hh hwf]
        have hfind : [(k1, v1)].find? (fun p => p.1 = k1) = some (k1, v1) :=
          List.find?_cons_of_pos _ (by simp)
        rw [hfind]
        cases hrw : rest.reverse.find? (fun p => p.1 = k1) with
        | none => simp [Option.or]
        | some p => simp [Option.or]
      · rw [lat_add_search_other t k k1 v1 (Ne.symm hk1)]
        have hfind : [(k1, v1)].find? (fun p => p.1 = k) = none :=
          List.find?_cons_of_neg _ (by simp [hk1])
        rw [hfind]
        cases hrw : rest.reverse.find? (fun p => p.1 = k) with
        | none => simp [Option.or]
        | some p => simp [Option.or]

theorem foldAdd_height (kvs : List (Nat × Nat)) : ∀ t : LAT,
    (kvs.foldl (fun t kv => t.add kv.1 kv.2) t).height = t.height := by
  induction kvs with
  | nil => intro t; rfl
  | cons kv rest ih => intro t; rw [List.foldl_cons, ih, add_height]

theorem build_height_pos (keys values : List Nat) (radix height : Option Nat) :
    (build keys values radix height).height ≠ 0 := by
  unfold build
  rw [foldAdd_height]
  split_ifs with hfalsy
  · simp
  · simp only [Bool.or_eq_true, decide_eq_true_eq] at hfalsy
    push_neg at hfalsy
    rcases height with _ | hv
    · simp at hfalsy
    · simpa using hfalsy.2

theorem wf_build (keys values : List Nat) (radix height : Option Nat) :
    wf (build keys values radix height).root (build keys values radix height).height
      = true := by
  have hfold : ∀ (kvs : List (Nat × Nat)) (t : LAT), wf t.root t.height = true →
      wf (kvs.foldl (fun t kv => t.add kv.1 kv.2) t).root
        (kvs.foldl (fun t kv => t.add kv.1 kv.2) t).height = true := by
    intro kvs
    induction kvs with
    | nil => intro t hw; exact hw
    | cons kv rest ih =>
        intro t hw
        rw [List.foldl_cons]
        exact ih _ (wf_add t kv.1 kv.2 hw)
  have hidx : ∀ m : Nat, m ≠ 0 → wf (.index []) m = true := by
    intro m hm
    cases m with
    | zero => exact absurd rfl hm
    | succ m2 => simp [wf, wfL]
  unfold build
  split_ifs with hfalsy
  · exact hfold _ _ (by simp [wf, wfL])
  · refine hfold _ _ (hidx _ ?_)
    simp only [Bool.or_eq_true, decide_eq_true_eq] at hfalsy
    push_neg at hfalsy
    rcases height with _ | hv
    · simp at hfalsy
    · simpa using hfalsy.2

/-- What a constructed LAT answers for any key: the value of the last
occurrence of the key in the input, or not-found. -/
theorem lat_build_search (keys values : List Nat) (radix height : Option Nat) (k : Nat) :
    (build keys values radix height).search k
      = ((keys.zip values).reverse.find? (fun p => p.1 = k)).map (fun p => p.2) := by
  have hbase : ∀ (r h : Nat), h ≠ 0 →
      ((⟨r, h, .index []⟩ : LAT)).search k = none := by
    intro r h hc
    unfold search
    simp only
    cases hkc : keyConversion r h k with
    | nil =>
        have := keyConversion_length r h k
        rw [hkc] at this
        exact absurd this.symm hc
    | cons d rest => simp [searchGo, childGet]
  have hor : ∀ x : Option Nat, x.or none = x := by
    intro x; cases x <;> rfl
  unfold build
  split_ifs with hfalsy
  · rw [lat_foldAdd_search _ k _ (by simp) (by simp [wf, wfL])]
    rw [hbase 4 4 (by simp), hor]
  · have hhz : height.getD 4 ≠ 0 := by
      simp only [Bool.or_eq_true, decide_eq_true_eq] at hfalsy
      push_neg at hfalsy
      rcases height with _ | hv
      · simp at hfalsy
      · simpa using hfalsy.2
    have hroot : wf ((⟨radix.getD 4, height.getD 4, .index []⟩ : LAT)).root
        ((⟨radix.getD 4, height.getD 4, .index []⟩ : LAT)).height = true := by
      simp only
      cases hm : height.getD 4 with
      | zero => exact absurd hm hhz
      | succ m2 => simp [wf, wfL]
    rw [lat_foldAdd_search _ k _ hhz hroot]
    rw [hbase _ _ hhz, hor]

end LAT

namespace RadixTrie

theorem trieGet_trieSet_self (d : Nat) (c : TrieNode) (l : List (Nat × TrieNode)) :
    trieGet (trieSet d c l) d = some c := by
  induction l with
  | nil => simp [trieSet, trieGet]
  | cons a rest ih =>
      obtain ⟨a1, a2⟩ := a
      simp only [trieSet]
      split_ifs with ha
      · simp [trieGet]
      · simp only [trieGet, List.find?_cons]
        have hd : (decide (a1 = d)) = false := by simp [ha]
        rw [hd]
        exact ih

theorem trieGet_trieSet_other (d d2 : Nat) (c : TrieNode) (l : List (Nat × TrieNode))
    (hne : d ≠ d2) : trieGet (trieSet d2 c l) d = trieGet l d := by
  induction l with
  | nil => simp [trieSet, trieGet, Ne.symm hne]
  | cons a rest ih =>
      obtain ⟨a1, a2⟩ := a
      simp only [trieSet]
      split_ifs with ha
      · subst ha
        simp only [trieGet, List.find?_cons]
        have hd : (decide (a1 = d)) = false := by simp; omega
        rw [hd]
      · simp only [trieGet, List.find?_cons]
        cases hdk : (decide (a1 = d)) with
        | true => rfl
        | false => exact ih

theorem trieSet_self_of_get {d : Nat} {c : TrieNode} {l : List (Nat × TrieNode)}
    (hg : trieGet l d = some c) : trieSet d c l = l := by
  induction l with
  | nil => simp [trieGet] at hg
  | cons a rest ih =>
      obtain ⟨a1, a2⟩ := a
      simp only [trieGet, List.find?_cons] at hg
      simp only [trieSet]
      split_ifs with ha
      · subst ha
        rw [show (decide (a1 = a1)) = true by simp] at hg
        simp only [Option.map_some', Option.some.injEq] at hg
        rw [hg]
      · rw [show (decide (a1 = d)) = false by simp [ha]] at hg
        rw [ih hg]

/-- Round trip at the node level: writing a value at the end of a
digit path that previously answered not-found makes the same path
answer exactly that value. -/
theorem trie_searchGo_addGo_self (v : Nat) : ∀ (p : List Nat) (n : TrieNode),
    searchGo n p = none → searchGo (addGo v n p) p = some v := by
  intro p
  induction p with
  | nil =>
      intro n hn
      cases n with
      | mk d val ch =>
          simp only [searchGo, TrieNode.value] at hn
          subst hn
          rfl
  | cons dg rest ih =>
      intro n hn
      cases n with
      | mk d val ch =>
          simp only [addGo]
          cases hc : trieGet ch dg with
          | none =>
              simp only [hc, searchGo, trieGet_trieSet_self]
              apply ih
              cases rest with
              | nil => rfl
              | cons x xs => simp [searchGo, trieGet]
          | some c =>
              simp only [hc, searchGo, trieGet_trieSet_self]
              apply ih
              simpa [searchGo, hc] using hn

/-- A path that already holds a value makes `add` a complete no-op
("first write wins"). -/
theorem addGo_dup (v : Nat) : ∀ (p : List Nat) (n : TrieNode) (w : Nat),
    searchGo n p = some w → addGo v n p = n := by
  intro p
  induction p with
  | nil =>
      intro n w hn
      cases n with
      | mk d val ch =>
          simp only [searchGo, TrieNode.value] at hn
          subst hn
          rfl
  | cons dg rest ih =>
      intro n w hn
      cases n with
      | mk d val ch =>
          simp only [searchGo] at hn
          cases hc : trieGet ch dg with
          | none => rw [hc] at hn; simp at hn
          | some c =>
              rw [hc] at hn
              simp only [addGo, hc]
              rw [ih c w hn, trieSet_self_of_get hc]

/-- A fresh single-path subtree holds nothing findable along any
other path. -/
theorem searchGo_addGo_fresh (v2 : Nat) : ∀ (p2 p : List Nat) (d : Nat), p2 ≠ p →
    searchGo (addGo v2 (.mk d none []) p2) p = none := by
  intro p2
  induction p2 with
  | nil =>
      intro p d hne
      cases p with
      | nil => exact absurd rfl hne
      | cons x xs => simp [addGo, searchGo, trieGet]
  | cons a as ih =>
      intro p d hne
      cases p with
      | nil =>
          cases as with
          | nil => rfl
          | cons b bs => rfl
      | cons x xs =>
          simp only [addGo, trieGet, List.find?_nil, Option.map_none']
          by_cases hx : x = a
          · subst hx
            simp only [searchGo]
            rw [show trieSet x (addGo v2 (.mk x none []) as) []
                = [(x, addGo v2 (.mk x none []) as)] from rfl]
            rw [show trieGet [(x, addGo v2 (.mk x none []) as)] x
                = some (addGo v2 (.mk x none []) as) by simp [trieGet]]
            apply ih
            intro he
            exact hne (by rw [he])
          · simp only [searchGo]
            rw [show trieSet a (addGo v2 (.mk a none []) as) []
                = [(a, addGo v2 (.mk a none []) as)] from rfl]
            have hdec : (decide (a = x)) = false := by simp; omega
            simp [trieGet, List.find?_cons, hdec]

/-- Adding along one digit path never disturbs the value read along a
different digit path. -/
theorem trie_searchGo_addGo_other (v2 : Nat) : ∀ (p2 p : List Nat) (n : TrieNode),
    p2 ≠ p → searchGo (addGo v2 n p2) p = searchGo n p := by
  intro p2
  induction p2 with
  | nil =>
      intro p n hne
      cases n with
      | mk d val ch =>
          cases p with
          | nil => exact absurd rfl hne
          | cons x xs =>
              simp only [addGo]
              cases val with
              | none => simp [searchGo]
              | some w => simp [searchGo]
  | cons a as ih =>
      intro p n hne
      cases n with
      | mk d val ch =>
          cases p with
          | nil => simp [addGo, searchGo, TrieNode.value]
          | cons x xs =>
              simp only [addGo]
              by_cases hx : x = a
              · subst hx
                have hxs : as ≠ xs := by
                  intro he
                  exact hne (by rw [he])
                cases hc : trieGet ch x with
                | none =>
                    simp only [hc, searchGo, trieGet_trieSet_self]
                    exact searchGo_addGo_fresh v2 as xs x hxs
                | some c =>
                    simp only [hc, searchGo, trieGet_trieSet_self]
                    exact ih xs c hxs
              · cases hc : trieGet ch a with
                | none =>
                    simp only [hc, searchGo]
                    rw [trieGet_trieSet_other _ _ _ _ hx]
                | some c =>
                    simp only [hc, searchGo]
                    rw [trieGet_trieSet_other _ _ _ _ hx]

theorem breakKeyGo_acc (r : Nat) : ∀ (fuel key : Nat) (acc : List Nat),
    breakKeyGo r fuel key acc = breakKeyGo r fuel key [] ++ acc := by
  intro fuel
  induction fuel with
  | zero => intro key acc; rfl
  | succ f ih =>
      intro key acc
      simp only [breakKeyGo]
      split_ifs with hk
      · rw [ih (key / r) (key % r :: acc), ih (key / r) [key % r]]
        simp
      · rfl

theorem ofDigits_append_single (r : Nat) (l : List Nat) (d : Nat) :
    ofDigits r (l ++ [d]) = ofDigits r l * r + d := by
  unfold ofDigits
  rw [List.foldl_append]
  rfl

/-- `_break_key` really is the base-`radix` digit expansion: folding
the digits back recovers the key (for a radix of at least 2, where the
Python loop terminates within `key` iterations). -/
theorem ofDigits_breakKeyGo (r : Nat) (hr : 2 ≤ r) :
    ∀ (key fuel : Nat), key ≤ fuel → ofDigits r (breakKeyGo r fuel key []) = key := by
  intro key
  induction key using Nat.strong_induction_on with
  | _ key ih =>
      intro fuel hf
      by_cases h0 : key = 0
      · subst h0
        cases fuel with
        | zero => rfl
        | succ f => simp [breakKeyGo, ofDigits]
      · have hpos : 0 < key := Nat.pos_of_ne_zero h0
        cases fuel with
        | zero => omega
        | succ f =>
            simp only [breakKeyGo, if_pos hpos]
            rw [breakKeyGo_acc, ofDigits_append_single]
            have hdiv : key / r < key := Nat.div_lt_self hpos (by omega)
            have hle : key / r ≤ f := by omega
            rw [ih (key / r) hdiv f hle]
            rw [Nat.mul_comm]
            exact Nat.div_add_mod key r

theorem breakKey_inj (r : Nat) (hr : 2 ≤ r) {k1 k2 : Nat}
    (h : breakKey r k1 = breakKey r k2) : k1 = k2 := by
  have h1 := ofDigits_breakKeyGo r hr k1 k1 le_rfl
  have h2 := ofDigits_breakKeyGo r hr k2 k2 le_rfl
  unfold breakKey at h
  rw [← h1, ← h2, h]

theorem breakKey_ne_nil (r k : Nat) (hk : 0 < k) : breakKey r k ≠ [] := by
  unfold breakKey
  cases k with
  | zero => omega
  | succ k2 =>
      simp only [breakKeyGo, if_pos (Nat.succ_pos k2)]
      rw [breakKeyGo_acc]
      simp

theorem trie_add_radix (t : RadixTrie) (k v : Nat) : (t.add k v).radix = t.radix := rfl

/-- Structure-level round trip for a key not previously present. -/
theorem trie_add_search_self (t : RadixTrie) (k v : Nat) (h : t.search k = none) :
    (t.add k v).search k = some v := by
  unfold search at h
  unfold add search
  simp only
  exact trie_searchGo_addGo_self v _ t.root h

/-- Structure-level "first write wins": adding an already-bound key
changes nothing at all. -/
theorem trie_add_dup (t : RadixTrie) (k v w : Nat) (h : t.search k = some w) :
    t.add k v = t := by
  unfold search at h
  cases t with
  | mk radix root =>
      simp only at h
      simp only [add]
      rw [addGo_dup v _ root w h]

/-- Structure-level frame: adding a different key never disturbs
`search` (the digit decomposition is injective for radix at least 2). -/
theorem trie_add_search_other (t : RadixTrie) (k k2 v : Nat) (hr : 2 ≤ t.radix)
    (hne : k ≠ k2) : (t.add k2 v).search k = t.search k := by
  unfold add search
  simp only
  apply trie_searchGo_addGo_other
  intro he
  exact hne (breakKey_inj t.radix hr he.symm)

theorem foldAdd_radix (kvs : List (Nat × Nat)) : ∀ t : RadixTrie,
    (kvs.foldl (fun t kv => t.add kv.1 kv.2) t).radix = t.radix := by
  induction kvs with
  | nil => intro t; rfl
  | cons kv rest ih => intro t; rw [List.foldl_cons, ih, trie_add_radix]

/-- `search` over a bulk of `add`s: the structure's own binding wins,
else the first occurrence in the added sequence ("first write wins"). -/
theorem trie_foldAdd_search (kvs : List (Nat × Nat)) (k : Nat) :
    ∀ t : RadixTrie, 2 ≤ t.radix →
      (kvs.foldl (fun t kv => t.add kv.1 kv.2) t).search k
        = (t.search k).or ((kvs.find? (fun p => p.1 = k)).map (fun p => p.2)) := by
  induction kvs with
  | nil => intro t _; cases h : t.search k <;> simp [Option.or, h]
  | cons kv rest ih =>
      obtain ⟨k1, v1⟩ := kv
      intro t hr
      rw [List.foldl_cons]
      rw [ih _ (by rw [trie_add_radix]; exact hr)]
      by_cases hk1 : k1 = k
      · subst hk1
        rw [List.find?_cons_of_pos _ (by simp)]
        cases hs : t.search k1 with
        | none =>
            rw [trie_add_search_self t k1 v1 hs]
            simp [Option.or]
        | some w =>
            rw [trie_add_dup t k1 v1 w hs]
            rw [hs]
            simp [Option.or]
      · rw [trie_add_search_other t k k1 v1 hr (Ne.symm hk1)]
        rw [List.find?_cons_of_neg _ (by simp [hk1])]

/-- What a constructed adaptive radix trie answers for any key: the
first binding of the key in the *lexicographically sorted* pair
sequence (the constructor sorts `zip(keys, values)` before adding with
first-write-wins). -/
theorem trie_build_search (keys values : List Nat) (r : Nat) (hr : 2 ≤ r) (k : Nat) :
    (build keys values (some r)).search k
      = ((sortedPairs keys values).find? (fun p => p.1 = k)).map (fun p => p.2) := by
  have hrz : ¬ (some r).getD 0 = 0 := by simp; omega
  have hbase : ∀ rx : Nat, 2 ≤ rx →
      ((⟨rx, .mk 0 none []⟩ : RadixTrie)).search k = none := by
    intro rx hrx
    unfold search
    simp only
    cases hkc : breakKey rx k with
    | nil => rfl
    | cons d rest => simp [searchGo, trieGet]
  unfold build
  split_ifs with hkeys
  · have hz : keys.zip values = [] := by
      have : keys = [] := List.length_eq_zero.mp hkeys
      simp [this]
    rw [show sortedPairs keys values = [] by
      unfold sortedPairs; rw [hz]; rfl]
    simp only [if_neg hrz, List.find?_nil]
    have := hbase r hr
    unfold search at this ⊢
    simpa using this
  · simp only [if_neg hrz]
    rw [show (some r).getD 0 = r from rfl]
    unfold sortedPairs
    rw [trie_foldAdd_search _ k _ (by rw [show (⟨r, .mk 0 none []⟩ : RadixTrie).radix = r from rfl]; exact hr)]
    rw [hbase r hr]
    cases hrw : ((keys.zip values).insertionSort pairLe).find? (fun p => p.1 = k) <;>
      simp [Option.or]

/-- The first binding for `k` in the lexicographically sorted pair
list carries the *smallest* value bound to `k` in the input. -/
theorem find?_sortedPairs_min (keys values : List Nat) (k : Nat) :
    ((sortedPairs keys values).find? (fun p => p.1 = k)).map (fun p => p.2)
      = minValFor (keys.zip values) k := by
  have hperm : (sortedPairs keys values).Perm (keys.zip values) :=
    List.perm_insertionSort pairLe (keys.zip values)
  have hsorted : (sortedPairs keys values).Sorted pairLe :=
    List.sorted_insertionSort pairLe (keys.zip values)
  cases hf : (sortedPairs keys values).find? (fun p => p.1 = k) with
  | none =>
      have hnone : ∀ p ∈ keys.zip values, ¬ p.1 = k := by
        intro p hp
        have hpS : p ∈ sortedPairs keys values := hperm.mem_iff.mpr hp
        have := List.find?_eq_none.mp hf p hpS
        simpa using this
      unfold minValFor
      rw [show (keys.zip values).filter (fun p => p.1 = k) = [] by
        rw [List.filter_eq_nil_iff]
        intro p hp
        simpa using hnone p hp]
      rfl
  | some q =>
      obtain ⟨q1, q2⟩ := q
      have hq := List.find?_eq_some.mp hf
      have hq1 : q1 = k := by simpa using hq.1
      subst hq1
      obtain ⟨as, bs, hSdecomp, has⟩ := hq.2
      unfold minValFor
      symm
      simp only [Option.map_some']
      rw [show ((keys.zip values).filter (fun p => p.1 = q1)).map (fun p => p.2)
            = ((keys.zip values).filter (fun p => p.1 = q1)).map Prod.snd from rfl]
      rw [List.min?_eq_some_iff']
      constructor
      · refine List.mem_map.mpr ⟨(q1, q2), ?_, rfl⟩
        refine List.mem_filter.mpr ⟨?_, by simp⟩
        refine hperm.mem_iff.mp ?_
        rw [hSdecomp]
        exact List.mem_append.mpr (Or.inr (List.mem_cons_self _ _))
      · intro y hy
        rcases List.mem_map.mp hy with ⟨p, hpf, hpy⟩
        obtain ⟨hpmem, hpk⟩ := List.mem_filter.mp hpf
        obtain ⟨p1, p2⟩ := p
        have hp1 : p1 = q1 := by simpa using hpk
        subst hp1
        have hpS : (p1, p2) ∈ sortedPairs keys values := hperm.mem_iff.mpr hpmem
        rw [hSdecomp] at hpS
        rcases List.mem_append.mp hpS with hin_as | hin_bs
        · have := has (p1, p2) hin_as
          simp at this
        · rcases List.mem_cons.mp hin_bs with heq | hin_bs2
          · simp only [Prod.mk.injEq] at heq
            have hpy2 : p2 = y := hpy
            omega
          · have hrel : pairLe (p1, q2) (p1, p2) := by
              have hsd := hSdecomp ▸ hsorted
              have := (List.pairwise_append.mp hsd).2.1
              exact (List.pairwise_cons.mp this).1 (p1, p2) hin_bs2
            unfold pairLe at hrel
            simp only at hrel
            have hpy2 : p2 = y := hpy
            omega

end RadixTrie

namespace SkipList

/-- `build` never touches the level cap fixed at construction. -/
theorem add_maxLevels (s : SkipList) (k v : Nat) (coins : List Bool) :
    (s.add k v coins).maxLevels = s.maxLevels := by
  simp only [add]
  split <;> rfl

theorem build_maxLevels (entries : List (Nat × Nat × List Bool)) (M : Nat) :
    (build entries M).maxLevels = M := by
  unfold build
  suffices h : ∀ s : SkipList, (entries.foldl (fun s e => s.add e.1 e.2.1 e.2.2) s).maxLevels
      = s.maxLevels by
    exact h (empty M)
  induction entries with
  | nil => intro s; rfl
  | cons e rest ih => intro s; rw [List.foldl_cons, ih, add_maxLevels]

theorem getD_set_self {α : Type} (l : List α) (i : Nat) (a d : α) (h : i < l.length) :
    (l.set i a).getD i d = a := by
  rw [List.getD_eq_getElem?_getD, List.getElem?_set]
  simp [h]

theorem getD_set_other {α : Type} (l : List α) {i j : Nat} (a d : α) (h : i ≠ j) :
    (l.set i a).getD j d = l.getD j d := by
  rw [List.getD_eq_getElem?_getD, List.getElem?_set, if_neg h,
    ← List.getD_eq_getElem?_getD]

theorem getD_append_left {α : Type} (l l2 : List α) (d : α) (n : Nat)
    (h : n < l.length) : (l ++ l2).getD n d = l.getD n d :=
  List.getD_append l l2 d n h

theorem getD_append_right {α : Type} (l : List α) (x d : α) :
    (l ++ [x]).getD l.length d = x := by
  rw [List.getD_eq_getElem?_getD]
  rw [List.getElem?_append_right le_rfl]
  simp

/-- A chain from a fixed start is unique: the store's forward map is a
function. -/
theorem chainFrom_unique (s : SkipList) (lv : Nat) : ∀ (l1 : List Nat) (c : Nat)
    (l2 : List Nat), IsChainFrom s lv c l1 → IsChainFrom s lv c l2 → l1 = l2 := by
  intro l1
  induction l1 with
  | nil =>
      intro c l2 h1 h2
      cases l2 with
      | nil => rfl
      | cons m rest2 =>
          unfold IsChainFrom at h1 h2
          rw [h1] at h2
          exact absurd h2.1.symm (by simp)
  | cons n rest ih =>
      intro c l2 h1 h2
      cases l2 with
      | nil =>
          unfold IsChainFrom at h1 h2
          rw [h2] at h1
          exact absurd h1.1.symm (by simp)
      | cons m rest2 =>
          unfold IsChainFrom at h1 h2
          obtain ⟨hf1, hr1⟩ := h1
          obtain ⟨hf2, hr2⟩ := h2
          rw [hf1] at hf2
          obtain rfl : n = m := by simpa using hf2
          rw [ih n rest2 hr1 hr2]

/-- The inner while loop equals the explicit predecessor scan when the
fuel covers the chain length. -/
theorem walk_eq_lastBelow (s : SkipList) (k lv : Nat) : ∀ (l : List Nat) (c fuel : Nat),
    IsChainFrom s lv c l → l.length ≤ fuel →
    s.walk k lv fuel c = lastBelow s k c l := by
  intro l
  induction l with
  | nil =>
      intro c fuel hch _
      unfold IsChainFrom at hch
      cases fuel with
      | zero => rfl
      | succ f => simp [walk, hch, lastBelow]
  | cons n rest ih =>
      intro c fuel hch hf
      obtain ⟨hfwd, hrest⟩ := hch
      cases fuel with
      | zero => simp at hf
      | succ f =>
          simp only [walk, hfwd, lastBelow]
          cases hb : keyBelow (s.nodeAt n).key k with
          | true =>
              simp only [if_pos rfl]
              exact ih n f hrest (by simpa using hf)
          | false => simp

theorem lastBelow_cases (s : SkipList) (k : Nat) : ∀ (l : List Nat) (c : Nat),
    lastBelow s k c l = c ∨
      (lastBelow s k c l ∈ l ∧ keyBelow (s.nodeAt (lastBelow s k c l)).key k = true) := by
  intro l
  induction l with
  | nil => intro c; left; rfl
  | cons n rest ih =>
      intro c
      simp only [lastBelow]
      cases hb : keyBelow (s.nodeAt n).key k with
      | true =>
          simp only [if_pos rfl]
          rcases ih n with h | ⟨hmem, hbel⟩
          · right
            rw [h]
            exact ⟨List.mem_cons_self _ _, hb⟩
          · right
            exact ⟨List.mem_cons_of_mem _ hmem, hbel⟩
      | false => simp

/-- After the predecessor scan, the remaining chain is exactly the
`dropWhile` suffix. -/
theorem chainFrom_lastBelow (s : SkipList) (k lv : Nat) : ∀ (l : List Nat) (c : Nat),
    IsChainFrom s lv c l →
    IsChainFrom s lv (lastBelow s k c l)
      (l.dropWhile (fun n => keyBelow (s.nodeAt n).key k)) := by
  intro l
  induction l with
  | nil => intro c hch; exact hch
  | cons n rest ih =>
      intro c hch
      obtain ⟨hfwd, hrest⟩ := hch
      simp only [lastBelow, List.dropWhile]
      cases hb : keyBelow (s.nodeAt n).key k with
      | true =>
          simp only [if_pos rfl]
          exact ih n hrest
      | false => exact ⟨hfwd, hrest⟩

theorem lastBelow_eq_getLastD (s : SkipList) (k : Nat) : ∀ (l : List Nat) (c : Nat),
    lastBelow s k c l
      = (l.takeWhile (fun n => keyBelow (s.nodeAt n).key k)).getLastD c := by
  intro l
  induction l with
  | nil => intro c; rfl
  | cons n rest ih =>
      intro c
      simp only [lastBelow, List.takeWhile]
      cases hb : keyBelow (s.nodeAt n).key k with
      | true =>
          rw [List.getLastD_cons, ih n]
          simp
      | false => simp

theorem lastBelow_append_skip (s : SkipList) (k : Nat) : ∀ (pre : List Nat)
    (c u : Nat) (suf : List Nat),
    (∀ x ∈ pre, keyBelow (s.nodeAt x).key k = true) →
    keyBelow (s.nodeAt u).key k = true →
    lastBelow s k c (pre ++ u :: suf) = lastBelow s k u suf := by
  intro pre
  induction pre with
  | nil =>
      intro c u suf _ hu
      simp only [List.nil_append, lastBelow, if_pos hu]
  | cons x pre2 ih =>
      intro c u suf hpre hu
      have hx : keyBelow (s.nodeAt x).key k = true := hpre x (List.mem_cons_self _ _)
      simp only [List.cons_append, lastBelow, if_pos hx]
      exact ih x u suf (fun y hy => hpre y (List.mem_cons_of_mem _ hy)) hu

theorem chainFrom_suffix (s : SkipList) (lv : Nat) : ∀ (l : List Nat) (c m : Nat),
    IsChainFrom s lv c l → m ∈ l →
    ∃ pre suf, l = pre ++ m :: suf ∧ IsChainFrom s lv m suf := by
  intro l
  induction l with
  | nil => intro c m _ hm; simp at hm
  | cons n rest ih =>
      intro c m hch hm
      obtain ⟨hfwd, hrest⟩ := hch
      rcases List.mem_cons.mp hm with rfl | hm2
      · exact ⟨[], rest, rfl, hrest⟩
      · obtain ⟨pre, suf, hdec, hsub⟩ := ih n m hrest hm2
        exact ⟨n :: pre, suf, by rw [hdec]; rfl, hsub⟩

theorem chainFrom_congr (s s2 : SkipList) (lv : Nat) : ∀ (l : List Nat) (c : Nat),
    IsChainFrom s lv c l →
    (∀ x, x = c ∨ x ∈ l → s2.fwd x lv = s.fwd x lv) →
    IsChainFrom s2 lv c l := by
  intro l
  induction l with
  | nil =>
      intro c hch hagree
      unfold IsChainFrom at hch ⊢
      rw [hagree c (Or.inl rfl)]
      exact hch
  | cons n rest ih =>
      intro c hch hagree
      obtain ⟨hfwd, hrest⟩ := hch
      refine ⟨?_, ?_⟩
      · rw [hagree c (Or.inl rfl)]; exact hfwd
      · exact ih n hrest fun x hx => hagree x (Or.inr (by
          rcases hx with rfl | hx2
          · exact List.mem_cons_self _ _
          · exact List.mem_cons_of_mem _ hx2))

theorem dropWhile_middle {α : Type} (P : α → Bool) : ∀ (pre : List α) (x : α)
    (suf : List α), (∀ y ∈ pre, P y = true) → P x = false →
    (pre ++ x :: suf).dropWhile P = x :: suf := by
  intro pre
  induction pre with
  | nil => intro x suf _ hx; simp [List.dropWhile, hx]
  | cons y pre2 ih =>
      intro x suf hpre hx
      have hy : P y = true := hpre y (List.mem_cons_self _ _)
      simp only [List.cons_append, List.dropWhile, hy]
      exact ih x suf (fun z hz => hpre z (List.mem_cons_of_mem _ hz)) hx

theorem chain_nodup (s : SkipList) (l : List Nat)
    (hpw : l.Pairwise (fun a b => keyOf s a < keyOf s b)) : l.Nodup := by
  refine hpw.imp ?_
  intro a b h heq
  rw [heq] at h
  exact lt_irrefl _ h

theorem chain_length_le (s : SkipList) (lv : Nat) {l : List Nat}
    (hg : ∀ id ∈ l, goodId s lv id)
    (hpw : l.Pairwise (fun a b => keyOf s a < keyOf s b)) :
    l.length ≤ s.nodes.length := by
  have hnd : l.Nodup := chain_nodup s l hpw
  have hsub : l ⊆ List.range s.nodes.length := by
    intro x hx
    exact List.mem_range.mpr (hg x hx).2.1
  have := (hnd.subperm hsub).length_le
  simpa using this

theorem randomLevel_le (M : Nat) : ∀ (coins : List Bool) (lv : Nat),
    randomLevel M coins lv ≤ max lv (M - 1) := by
  intro coins
  induction coins with
  | nil => intro lv; simp [randomLevel]
  | cons c rest ih =>
      intro lv
      simp only [randomLevel]
      by_cases h : (c && decide (lv < M - 1)) = true
      · rw [if_pos h]
        have hlt : lv < M - 1 := by
          simp at h
          exact h.2
        have h1 := ih (lv + 1)
        omega
      · rw [if_neg h]
        exact le_max_left _ _

theorem getD_reverse {α : Type} (l : List α) (j : Nat) (d : α) (h : j < l.length) :
    l.reverse.getD j d = l.getD (l.length - 1 - j) d := by
  rw [List.getD_eq_getElem?_getD, List.getD_eq_getElem?_getD, List.getElem?_reverse h]

theorem getD_append_ge {α : Type} (l l2 : List α) (d : α) (n : Nat)
    (h : l.length ≤ n) : (l ++ l2).getD n d = l2.getD (n - l.length) d := by
  rw [List.getD_eq_getElem?_getD, List.getElem?_append_right h,
    ← List.getD_eq_getElem?_getD]

theorem getD_replicate_none (n j : Nat) :
    (List.replicate n (none : Option Nat)).getD j none = none := by
  rw [List.getD_eq_getElem?_getD]
  rcases Nat.lt_or_ge j n with h | h
  · rw [List.getElem?_eq_getElem (by simpa using h)]
    simp
  · rw [List.getElem?_eq_none (by simpa using h)]
    rfl

theorem getD_replicate_zero (n j : Nat) :
    (List.replicate n (0 : Nat)).getD j 0 = 0 := by
  rw [List.getD_eq_getElem?_getD]
  rcases Nat.lt_or_ge j n with h | h
  · rw [List.getElem?_eq_getElem (by simpa using h)]
    simp
  · rw [List.getElem?_eq_none (by simpa using h)]
    rfl

theorem getD_set_ge {α : Type} (l : List α) (i : Nat) (a d : α)
    (h : l.length ≤ i) (j : Nat) : (l.set i a).getD j d = l.getD j d := by
  rw [List.getD_eq_getElem?_getD, List.getElem?_set]
  rcases eq_or_ne i j with rfl | hne
  · rw [if_pos rfl, if_neg (by omega), List.getD_eq_getElem?_getD,
      List.getElem?_eq_none h]
  · rw [if_neg hne, ← List.getD_eq_getElem?_getD]

theorem setFwd_eq (nds : List skipNode) (id lv : Nat) (t : Option Nat)
    (h : id < nds.length) :
    setFwd nds id lv t = nds.set id
      { nds.getD id ⟨none, none, []⟩ with
        forward := (nds.getD id ⟨none, none, []⟩).forward.set lv t } := by
  unfold setFwd
  rw [List.get?_eq_getElem?, List.getElem?_eq_getElem h]
  have hgd : nds.getD id ⟨none, none, []⟩ = nds[id] := by
    rw [List.getD_eq_getElem?_getD, List.getElem?_eq_getElem h]
    rfl
  rw [hgd]

theorem setFwd_oob (nds : List skipNode) (id lv : Nat) (t : Option Nat)
    (h : nds.length ≤ id) : setFwd nds id lv t = nds := by
  unfold setFwd
  rw [List.get?_eq_getElem?, List.getElem?_eq_none h]

theorem setFwd_length (nds : List skipNode) (id lv : Nat) (t : Option Nat) :
    (setFwd nds id lv t).length = nds.length := by
  rcases Nat.lt_or_ge id nds.length with h | h
  · rw [setFwd_eq nds id lv t h, List.length_set]
  · rw [setFwd_oob nds id lv t h]

theorem setFwd_read_key (nds : List skipNode) (id lv : Nat) (t : Option Nat) (j : Nat) :
    ((setFwd nds id lv t).getD j ⟨none, none, []⟩).key
        = (nds.getD j ⟨none, none, []⟩).key ∧
      ((setFwd nds id lv t).getD j ⟨none, none, []⟩).value
        = (nds.getD j ⟨none, none, []⟩).value ∧
      ((setFwd nds id lv t).getD j ⟨none, none, []⟩).forward.length
        = (nds.getD j ⟨none, none, []⟩).forward.length := by
  rcases Nat.lt_or_ge id nds.length with h | h
  · rcases eq_or_ne j id with rfl | hne
    · rw [setFwd_eq nds j lv t h, getD_set_self _ _ _ _ h]
      refine ⟨rfl, rfl, ?_⟩
      simp
    · rw [setFwd_eq nds id lv t h, getD_set_other _ _ _ hne.symm]
      exact ⟨rfl, rfl, rfl⟩
  · rw [setFwd_oob nds id lv t h]
    exact ⟨rfl, rfl, rfl⟩

theorem setFwd_read_fwd (nds : List skipNode) (id lv : Nat) (t : Option Nat)
    (j m : Nat) (hne : j ≠ id ∨ m ≠ lv) :
    ((setFwd nds id lv t).getD j ⟨none, none, []⟩).forward.getD m none
      = (nds.getD j ⟨none, none, []⟩).forward.getD m none := by
  rcases Nat.lt_or_ge id nds.length with h | h
  · rcases eq_or_ne j id with rfl | hj
    · have hm : m ≠ lv := by
        rcases hne with h1 | h1
        · exact absurd rfl h1
        · exact h1
      rw [setFwd_eq nds j lv t h, getD_set_self _ _ _ _ h]
      exact getD_set_other _ _ _ (fun he => hm he.symm)
    · rw [setFwd_eq nds id lv t h, getD_set_other _ _ _ hj.symm]
  · rw [setFwd_oob nds id lv t h]

theorem setFwd_read_fwd_self (nds : List skipNode) (id lv : Nat) (t : Option Nat)
    (h : id < nds.length)
    (hlv : lv < (nds.getD id ⟨none, none, []⟩).forward.length) :
    ((setFwd nds id lv t).getD id ⟨none, none, []⟩).forward.getD lv none = t := by
  rw [setFwd_eq nds id lv t h, getD_set_self _ _ _ _ h]
  exact getD_set_self _ _ _ _ hlv

theorem keyBelow_of_lt (s : SkipList) {x c k : Nat}
    (hx : ∃ kx, (s.nodeAt x).key = some kx) (hc : ∃ kc, (s.nodeAt c).key = some kc)
    (hlt : keyOf s x < keyOf s c) (hb : keyBelow (s.nodeAt c).key k = true) :
    keyBelow (s.nodeAt x).key k = true := by
  obtain ⟨kx, hkx⟩ := hx
  obtain ⟨kc, hkc⟩ := hc
  rw [hkc] at hb
  rw [hkx]
  simp only [keyOf, hkx, hkc, Option.getD_some] at hlt
  simp only [keyBelow] at hb ⊢
  simp at hb ⊢
  omega

/-- The walk over level `lv` always lands on the predecessor of `k` in
the full level-`lv` chain, whether it starts at the head or at a node
the higher-level walk stopped on. -/
theorem walk_chain (s : SkipList) (k : Nat) (hinv : Inv s) (lv c : Nat) (l : List Nat)
    (hl : IsChain s lv l)
    (hc : c = 0 ∨ (c ∈ l ∧ keyBelow (s.nodeAt c).key k = true)) :
    s.walk k lv s.nodes.length c = lastBelow s k 0 l := by
  obtain ⟨l', hl', hg', hpw'⟩ := hinv.chains lv
  have hEq : l' = l := chainFrom_unique s lv l' 0 l hl' hl
  rw [hEq] at hg' hpw'
  have hlen : l.length ≤ s.nodes.length := chain_length_le s lv hg' hpw'
  rcases hc with rfl | ⟨hm, hb⟩
  · exact walk_eq_lastBelow s k lv l 0 s.nodes.length hl hlen
  · obtain ⟨pre, suf, hdec, hsuf⟩ := chainFrom_suffix s lv l 0 c hl hm
    have hsuflen : suf.length ≤ s.nodes.length := by
      rw [hdec] at hlen
      simp at hlen
      omega
    have hwalk : s.walk k lv s.nodes.length c = lastBelow s k c suf :=
      walk_eq_lastBelow s k lv suf c s.nodes.length hsuf hsuflen
    have hpre : ∀ x ∈ pre, keyBelow (s.nodeAt x).key k = true := by
      intro x hxp
      have hxl : x ∈ l := by
        rw [hdec]
        exact List.mem_append_left _ hxp
      have hlt : keyOf s x < keyOf s c := by
        have hpw2 := hpw'
        rw [hdec] at hpw2
        exact (List.pairwise_append.mp hpw2).2.2 x hxp c (List.mem_cons_self _ _)
      exact keyBelow_of_lt s (hg' x hxl).2.2.1 (hg' c hm).2.2.1 hlt hb
    rw [hwalk, hdec, lastBelow_append_skip s k pre 0 c suf hpre hb]

theorem updAux_length (s : SkipList) (k : Nat) : ∀ (lv c : Nat),
    (s.updAux k c lv).length = lv + 1 := by
  intro lv
  induction lv with
  | zero => intro c; rfl
  | succ n ih =>
      intro c
      simp only [updAux, List.length_cons, ih]

/-- Entry `lv - j` of the raw `_search_helper` accumulator is the
level-`j` predecessor of `k`. -/
theorem updAux_getD (s : SkipList) (k : Nat) (hinv : Inv s) : ∀ (lv c : Nat),
    (c = 0 ∨ ∃ lc, IsChain s (lv + 1) lc ∧ c ∈ lc ∧ keyBelow (s.nodeAt c).key k = true) →
    ∀ j, j ≤ lv → ∀ l, IsChain s j l →
      (s.updAux k c lv).getD (lv - j) 0 = lastBelow s k 0 l := by
  intro lv
  induction lv with
  | zero =>
      intro c hc j hj l hl
      obtain rfl : j = 0 := Nat.le_zero.mp hj
      simp only [updAux, Nat.sub_zero, List.getD_cons_zero]
      apply walk_chain s k hinv 0 c l hl
      rcases hc with rfl | ⟨lc, hlc, hm, hb⟩
      · exact Or.inl rfl
      · exact Or.inr ⟨hinv.contain 0 lc l hlc hl c hm, hb⟩
  | succ n ih =>
      intro c hc j hj l hl
      simp only [updAux]
      rcases Nat.lt_or_ge j (n + 1) with hjn | hjge
      · have hidx : n + 1 - j = (n - j) + 1 := by omega
        rw [hidx, List.getD_cons_succ]
        obtain ⟨ln1, hln1, hg1, hpw1⟩ := hinv.chains (n + 1)
        have hc' : s.walk k (n + 1) s.nodes.length c = lastBelow s k 0 ln1 := by
          apply walk_chain s k hinv (n + 1) c ln1 hln1
          rcases hc with rfl | ⟨lc, hlc, hm, hb⟩
          · exact Or.inl rfl
          · exact Or.inr ⟨hinv.contain (n + 1) lc ln1 hlc hln1 c hm, hb⟩
        rw [hc']
        refine ih (lastBelow s k 0 ln1) ?_ j (by omega) l hl
        rcases lastBelow_cases s k ln1 0 with h0 | ⟨hmem, hbel⟩
        · exact Or.inl h0
        · exact Or.inr ⟨ln1, hln1, hmem, hbel⟩
      · obtain rfl : j = n + 1 := by omega
        rw [Nat.sub_self, List.getD_cons_zero]
        apply walk_chain s k hinv (n + 1) c l hl
        rcases hc with rfl | ⟨lc, hlc, hm, hb⟩
        · exact Or.inl rfl
        · exact Or.inr ⟨hinv.contain (n + 1) lc l hlc hl c hm, hb⟩

/-- `update[j]` is the level-`j` predecessor of `k`, for every level the
search loop visits. -/
theorem update_getD (s : SkipList) (k : Nat) (hinv : Inv s) (j : Nat) (hj : j ≤ s.lvl)
    (l : List Nat) (hl : IsChain s j l) :
    (s.update k).getD j 0 = lastBelow s k 0 l := by
  unfold update
  have hlen : (s.updAux k 0 s.lvl).length = s.lvl + 1 := updAux_length s k s.lvl 0
  have hjr : j < (s.updAux k 0 s.lvl).reverse.length := by
    rw [List.length_reverse, hlen]
    omega
  rw [getD_append_left _ _ _ _ hjr,
    getD_reverse _ _ _ (by rw [List.length_reverse] at hjr; exact hjr), hlen]
  have hidx : s.lvl + 1 - 1 - j = s.lvl - j := by omega
  rw [hidx]
  exact updAux_getD s k hinv s.lvl 0 (Or.inl rfl) j hj l hl

/-- `update[j]` is the untouched head entry above `self.lvl`. -/
theorem update_getD_high (s : SkipList) (k : Nat) (j : Nat) (hj : s.lvl < j) :
    (s.update k).getD j 0 = 0 := by
  unfold update
  have hlen : (s.updAux k 0 s.lvl).reverse.length = s.lvl + 1 := by
    rw [List.length_reverse]
    exact updAux_length s k s.lvl 0
  rw [getD_append_ge _ _ _ _ (by rw [hlen]; omega)]
  exact getD_replicate_zero _ _

theorem chain_subset_zero (s : SkipList) (hinv : Inv s) : ∀ (lv : Nat) (l l0 : List Nat),
    IsChain s lv l → IsChain s 0 l0 → ∀ id ∈ l, id ∈ l0 := by
  intro lv
  induction lv with
  | zero =>
      intro l l0 h1 h2 id hid
      rwa [chainFrom_unique s 0 l 0 l0 h1 h2] at hid
  | succ n ih =>
      intro l l0 h1 h2 id hid
      obtain ⟨ln, hln, h3, h4⟩ := hinv.chains n
      exact ih ln l0 hln h2 id (hinv.contain n l ln h1 hln id hid)

/-- `search` probes exactly the head of the `dropWhile` suffix of the
level-0 chain. -/
theorem search_eq_chain (s : SkipList) (k : Nat) (hinv : Inv s) (l : List Nat)
    (hl : IsChain s 0 l) :
    s.search k
      = match (l.dropWhile fun n => keyBelow (s.nodeAt n).key k).head? with
        | some t => if (s.nodeAt t).key = some k then (s.nodeAt t).value else none
        | none => none := by
  have h0 : (s.update k).getD 0 0 = lastBelow s k 0 l :=
    update_getD s k hinv 0 (Nat.zero_le _) l hl
  have hch2 : IsChainFrom s 0 (lastBelow s k 0 l)
      (l.dropWhile fun n => keyBelow (s.nodeAt n).key k) :=
    chainFrom_lastBelow s k 0 l 0 hl
  simp only [search, h0]
  cases hd : l.dropWhile fun n => keyBelow (s.nodeAt n).key k with
  | nil =>
      rw [hd] at hch2
      unfold IsChainFrom at hch2
      rw [hch2]
      rfl
  | cons t rest =>
      rw [hd] at hch2
      rw [hch2.1]
      rfl

theorem search_of_mem (s : SkipList) (k : Nat) (hinv : Inv s) (l : List Nat)
    (hl : IsChain s 0 l) (t : Nat) (ht : t ∈ l) (hk : (s.nodeAt t).key = some k) :
    s.search k = (s.nodeAt t).value := by
  obtain ⟨l', hl', hg, hpw⟩ := hinv.chains 0
  have hEq : l' = l := chainFrom_unique s 0 l' 0 l hl' hl
  rw [hEq] at hg hpw
  obtain ⟨pre, suf, hdec⟩ := List.append_of_mem ht
  have hpre : ∀ x ∈ pre, keyBelow (s.nodeAt x).key k = true := by
    intro x hx
    have hxl : x ∈ l := by
      rw [hdec]
      exact List.mem_append_left _ hx
    have hlt : keyOf s x < keyOf s t := by
      have hpw2 := hpw
      rw [hdec] at hpw2
      exact (List.pairwise_append.mp hpw2).2.2 x hx t (List.mem_cons_self _ _)
    obtain ⟨kx, hkx⟩ := (hg x hxl).2.2.1
    simp only [keyOf, hkx, hk, Option.getD_some] at hlt
    rw [hkx]
    simp only [keyBelow]
    simpa using hlt
  have hbt : keyBelow (s.nodeAt t).key k = false := by
    rw [hk]
    simp [keyBelow]
  rw [search_eq_chain s k hinv l hl, hdec,
    dropWhile_middle _ pre t suf hpre hbt]
  simp [hk]

theorem search_of_not_mem (s : SkipList) (k : Nat) (hinv : Inv s) (l : List Nat)
    (hl : IsChain s 0 l) (h : ∀ t ∈ l, ¬ (s.nodeAt t).key = some k) :
    s.search k = none := by
  rw [search_eq_chain s k hinv l hl]
  cases hd : l.dropWhile fun n => keyBelow (s.nodeAt n).key k with
  | nil => rfl
  | cons t rest =>
      have hsub : List.Sublist (l.dropWhile fun n => keyBelow (s.nodeAt n).key k) l :=
        List.dropWhile_sublist _
      rw [hd] at hsub
      have ht : t ∈ l := hsub.subset (List.mem_cons_self _ _)
      simp [h t ht]

theorem search_some_mem (s : SkipList) (k w : Nat) (hinv : Inv s) (l : List Nat)
    (hl : IsChain s 0 l) (hw : s.search k = some w) :
    ∃ t ∈ l, (s.nodeAt t).key = some k ∧ (s.nodeAt t).value = some w := by
  rw [search_eq_chain s k hinv l hl] at hw
  cases hd : l.dropWhile fun n => keyBelow (s.nodeAt n).key k with
  | nil =>
      rw [hd] at hw
      simp at hw
  | cons t rest =>
      rw [hd] at hw
      have hsub : List.Sublist (l.dropWhile fun n => keyBelow (s.nodeAt n).key k) l :=
        List.dropWhile_sublist _
      rw [hd] at hsub
      have ht : t ∈ l := hsub.subset (List.mem_cons_self _ _)
      by_cases hk : (s.nodeAt t).key = some k
      · exact ⟨t, ht, hk, by simpa [hk] using hw⟩
      · simp [hk] at hw

/-- In a sorted keyed chain, every node of the `dropWhile` suffix has
its key at or above `k`. -/
theorem dropWhile_below_false (s : SkipList) (k : Nat) : ∀ (l : List Nat),
    (∀ id ∈ l, ∃ kk, (s.nodeAt id).key = some kk) →
    l.Pairwise (fun a b => keyOf s a < keyOf s b) →
    ∀ x ∈ l.dropWhile (fun n => keyBelow (s.nodeAt n).key k),
      keyBelow (s.nodeAt x).key k = false := by
  intro l
  induction l with
  | nil =>
      intro h1 h2 x hx
      simp [List.dropWhile] at hx
  | cons a l2 ih =>
      intro hkeys hpw x hx
      rw [List.dropWhile_cons] at hx
      by_cases ha : keyBelow (s.nodeAt a).key k = true
      · rw [if_pos ha] at hx
        exact ih (fun id hid => hkeys id (List.mem_cons_of_mem _ hid))
          (List.pairwise_cons.mp hpw).2 x hx
      · have ha' : keyBelow (s.nodeAt a).key k = false := by
          cases hh : keyBelow (s.nodeAt a).key k
          · rfl
          · exact absurd hh ha
        rw [if_neg (by simp [ha'])] at hx
        rcases List.mem_cons.mp hx with rfl | hx2
        · exact ha'
        · obtain ⟨ka, hka⟩ := hkeys a (List.mem_cons_self _ _)
          obtain ⟨kx, hkx⟩ := hkeys x (List.mem_cons_of_mem _ hx2)
          have hlt : keyOf s a < keyOf s x := (List.pairwise_cons.mp hpw).1 x hx2
          rw [hka] at ha'
          rw [hkx]
          simp only [keyOf, hka, hkx, Option.getD_some] at hlt
          simp only [keyBelow] at ha' ⊢
          simp at ha' ⊢
          omega

/-- Full characterisation of the splice loop of `add`: store length,
node identities and forward lengths are preserved, the windowed levels
of the `update` nodes are redirected to the new node, and the new
node's forward array collects their previous targets. -/
theorem spliceGo_spec (newId : Nat) (upd : List Nat) : ∀ (count i : Nat)
    (nds : List skipNode) (nf : List (Option Nat)),
    (∀ lv, i ≤ lv → lv < i + count → upd.getD lv 0 < nds.length ∧
      lv < (nds.getD (upd.getD lv 0) ⟨none, none, []⟩).forward.length) →
    (spliceGo newId upd i count nds nf).1.length = nds.length ∧
    (spliceGo newId upd i count nds nf).2.length = nf.length ∧
    (∀ j, ((spliceGo newId upd i count nds nf).1.getD j ⟨none, none, []⟩).key
          = (nds.getD j ⟨none, none, []⟩).key ∧
        ((spliceGo newId upd i count nds nf).1.getD j ⟨none, none, []⟩).value
          = (nds.getD j ⟨none, none, []⟩).value ∧
        ((spliceGo newId upd i count nds nf).1.getD j ⟨none, none, []⟩).forward.length
          = (nds.getD j ⟨none, none, []⟩).forward.length) ∧
    (∀ j lv,
        ((spliceGo newId upd i count nds nf).1.getD j ⟨none, none, []⟩).forward.getD lv none
          = if i ≤ lv ∧ lv < i + count ∧ j = upd.getD lv 0 then some newId
            else (nds.getD j ⟨none, none, []⟩).forward.getD lv none) ∧
    (∀ lv, (spliceGo newId upd i count nds nf).2.getD lv none
        = if i ≤ lv ∧ lv < i + count ∧ lv < nf.length
          then (nds.getD (upd.getD lv 0) ⟨none, none, []⟩).forward.getD lv none
          else nf.getD lv none) := by
  intro count
  induction count with
  | zero =>
      intro i nds nf hrange
      refine ⟨rfl, rfl, fun j => ⟨rfl, rfl, rfl⟩, ?_, ?_⟩
      · intro j lv
        rw [if_neg (by omega)]
        rfl
      · intro lv
        rw [if_neg (by omega)]
        rfl
  | succ n ih =>
      intro i nds nf hrange
      have hr0 := hrange i (le_refl i) (by omega)
      simp only [spliceGo]
      have hrange2 : ∀ lv, i + 1 ≤ lv → lv < (i + 1) + n →
          upd.getD lv 0 < (setFwd nds (upd.getD i 0) i (some newId)).length ∧
          lv < ((setFwd nds (upd.getD i 0) i (some newId)).getD (upd.getD lv 0)
            ⟨none, none, []⟩).forward.length := by
        intro lv h1 h2
        rw [setFwd_length]
        have h3 := hrange lv (by omega) (by omega)
        refine ⟨h3.1, ?_⟩
        rw [(setFwd_read_key nds (upd.getD i 0) i (some newId) (upd.getD lv 0)).2.2]
        exact h3.2
      obtain ⟨ih1, ih2, ih3, ih4, ih5⟩ := ih (i + 1)
        (setFwd nds (upd.getD i 0) i (some newId))
        (nf.set i ((nds.getD (upd.getD i 0) ⟨none, none, []⟩).forward.getD i none))
        hrange2
      refine ⟨?_, ?_, ?_, ?_, ?_⟩
      · rw [ih1, setFwd_length]
      · rw [ih2, List.length_set]
      · intro j
        obtain ⟨k1, k2, k3⟩ := ih3 j
        obtain ⟨m1, m2, m3⟩ := setFwd_read_key nds (upd.getD i 0) i (some newId) j
        exact ⟨k1.trans m1, k2.trans m2, k3.trans m3⟩
      · intro j lv
        rw [ih4 j lv]
        by_cases hA : i + 1 ≤ lv ∧ lv < i + 1 + n ∧ j = upd.getD lv 0
        · rw [if_pos hA, if_pos ⟨by omega, by omega, hA.2.2⟩]
        · rw [if_neg hA]
          by_cases hB : lv = i ∧ j = upd.getD i 0
          · obtain ⟨hB1, hB2⟩ := hB
            rw [hB1, hB2]
            rw [setFwd_read_fwd_self nds (upd.getD i 0) i (some newId) hr0.1 hr0.2]
            rw [if_pos ⟨le_refl i, by omega, rfl⟩]
          · have hne : j ≠ upd.getD i 0 ∨ lv ≠ i := by tauto
            rw [setFwd_read_fwd nds (upd.getD i 0) i (some newId) j lv hne]
            rw [if_neg (by
              rintro ⟨h1, h2, h3⟩
              rcases eq_or_ne lv i with heq | hlvne
              · exact hB ⟨heq, by rw [← heq]; exact h3⟩
              · exact hA ⟨by omega, by omega, h3⟩)]
      · intro lv
        rw [ih5 lv]
        simp only [List.length_set]
        by_cases hA : i + 1 ≤ lv ∧ lv < i + 1 + n ∧ lv < nf.length
        · rw [if_pos hA]
          rw [setFwd_read_fwd nds (upd.getD i 0) i (some newId) (upd.getD lv 0) lv
            (Or.inr (by omega))]
          rw [if_pos ⟨by omega, by omega, hA.2.2⟩]
        · rw [if_neg hA]
          rcases eq_or_ne lv i with heq | hlvne
          · rw [heq]
            rcases Nat.lt_or_ge i nf.length with hlt | hge
            · rw [getD_set_self _ _ _ _ hlt]
              rw [if_pos ⟨le_refl i, by omega, hlt⟩]
            · rw [getD_set_ge _ _ _ _ hge]
              rw [if_neg (by omega)]
          · rw [getD_set_other _ _ _ (fun he => hlvne he.symm)]
            rw [if_neg (by
              rintro ⟨h1, h2, h3⟩
              exact hA ⟨by omega, by omega, h3⟩)]

theorem getLastD_mem_cons {α : Type} : ∀ (l : List α) (d : α), l.getLastD d ∈ d :: l := by
  intro l
  induction l with
  | nil => intro d; exact List.mem_cons_self _ _
  | cons a l2 ih =>
      intro d
      rw [List.getLastD_cons]
      exact List.mem_cons_of_mem d (ih a)

/-- Redirecting the chain predecessor to a fresh node that inherits its
old target splices the fresh node into the chain. -/
theorem chain_insert (s s2 : SkipList) (lv newId : Nat) : ∀ (pre : List Nat)
    (c : Nat) (suf : List Nat),
    IsChainFrom s lv c (pre ++ suf) →
    (∀ x, x = c ∨ x ∈ pre ++ suf → x ≠ pre.getLastD c → s2.fwd x lv = s.fwd x lv) →
    s2.fwd (pre.getLastD c) lv = some newId →
    s2.fwd newId lv = s.fwd (pre.getLastD c) lv →
    c ∉ pre → pre.Nodup → pre.getLastD c ∉ suf →
    newId ∉ pre → newId ≠ c → newId ∉ suf →
    IsChainFrom s2 lv c (pre ++ newId :: suf) := by
  intro pre
  induction pre with
  | nil =>
      intro c suf hold hagree hpred hnew hc hnd hps hnp hnc hns
      simp only [List.nil_append] at hold ⊢
      simp only [List.getLastD_nil] at hpred hnew hps
      refine ⟨hpred, ?_⟩
      cases suf with
      | nil =>
          unfold IsChainFrom at hold ⊢
          rw [hnew, hold]
      | cons h2 t =>
          obtain ⟨hf, hrest⟩ := hold
          refine ⟨by rw [hnew, hf], ?_⟩
          refine chainFrom_congr s s2 lv t h2 hrest ?_
          intro x hx
          have hxs : x ∈ h2 :: t := by
            rcases hx with rfl | hx2
            · exact List.mem_cons_self _ _
            · exact List.mem_cons_of_mem _ hx2
          refine hagree x (Or.inr hxs) ?_
          intro heq
          rw [heq] at hxs
          exact hps hxs
  | cons a pre2 ih =>
      intro c suf hold hagree hpred hnew hc hnd hps hnp hnc hns
      obtain ⟨hf, hrest⟩ := hold
      have hlast : (a :: pre2).getLastD c = pre2.getLastD a := List.getLastD_cons c a pre2
      have hpredmem : (a :: pre2).getLastD c ∈ a :: pre2 := by
        rw [hlast]
        exact getLastD_mem_cons pre2 a
      have hcne : c ≠ (a :: pre2).getLastD c := by
        intro heq
        apply hc
        rw [heq]
        exact hpredmem
      refine ⟨?_, ?_⟩
      · rw [hagree c (Or.inl rfl) hcne]
        exact hf
      · refine ih a suf hrest ?_ ?_ ?_ ?_ ?_ ?_ ?_ ?_ ?_
        · intro x hx hxne
          refine hagree x ?_ (by rw [hlast]; exact hxne)
          rcases hx with rfl | hx2
          · exact Or.inr (List.mem_append_left _ (List.mem_cons_self _ _))
          · rcases List.mem_append.mp hx2 with h3 | h3
            · exact Or.inr (List.mem_append_left _ (List.mem_cons_of_mem _ h3))
            · exact Or.inr (List.mem_append_right _ h3)
        · rw [← hlast]
          exact hpred
        · rw [← hlast]
          exact hnew
        · exact (List.nodup_cons.mp hnd).1
        · exact (List.nodup_cons.mp hnd).2
        · rw [← hlast]
          exact hps
        · intro hmem
          exact hnp (List.mem_cons_of_mem _ hmem)
        · intro heq
          exact hnp (by rw [heq]; exact List.mem_cons_self _ _)
        · exact hns

/-- `add` is a no-op when the key is already present. -/
theorem add_of_found (s : SkipList) (k v w : Nat) (coins : List Bool)
    (hw : s.search k = some w) : s.add k v coins = s := by
  simp only [search] at hw
  simp only [add]
  cases hfw : s.fwd ((s.update k).getD 0 0) 0 with
  | none =>
      rw [hfw] at hw
      simp at hw
  | some t =>
      rw [hfw] at hw
      by_cases hk : (s.nodeAt t).key = some k
      · simp [hk]
      · simp [hk] at hw

/-- On a missing key the duplicate probe fails and `add` reduces to the
splice expression. -/
theorem add_eq_of_none (s : SkipList) (k v : Nat) (coins : List Bool) (hinv : Inv s)
    (hnone : s.search k = none) :
    s.add k v coins =
      { maxLevels := s.maxLevels,
        lvl := max s.lvl (randomLevel s.maxLevels coins 0),
        nodes := (spliceGo s.nodes.length (s.update k) 0
            (randomLevel s.maxLevels coins 0 + 1) s.nodes
            (List.replicate (randomLevel s.maxLevels coins 0 + 1) none)).1
          ++ [⟨some k, some v,
            (spliceGo s.nodes.length (s.update k) 0
              (randomLevel s.maxLevels coins 0 + 1) s.nodes
              (List.replicate (randomLevel s.maxLevels coins 0 + 1) none)).2⟩] } := by
  obtain ⟨l0, hl0, hg0, hpw0⟩ := hinv.chains 0
  simp only [add]
  cases hfw : s.fwd ((s.update k).getD 0 0) 0 with
  | none => rfl
  | some t =>
      by_cases hk : (s.nodeAt t).key = some k
      · exfalso
        have h0 : (s.update k).getD 0 0 = lastBelow s k 0 l0 :=
          update_getD s k hinv 0 (Nat.zero_le _) l0 hl0
        have hch2 : IsChainFrom s 0 (lastBelow s k 0 l0)
            (l0.dropWhile fun n => keyBelow (s.nodeAt n).key k) :=
          chainFrom_lastBelow s k 0 l0 0 hl0
        rw [h0] at hfw
        cases hd : l0.dropWhile fun n => keyBelow (s.nodeAt n).key k with
        | nil =>
            rw [hd] at hch2
            unfold IsChainFrom at hch2
            rw [hch2] at hfw
            exact absurd hfw (by simp)
        | cons t2 rest =>
            rw [hd] at hch2
            rw [hch2.1] at hfw
            have ht2 : t2 = t := by simpa using hfw
            rw [← ht2] at hk
            have hsub : List.Sublist
                (l0.dropWhile fun n => keyBelow (s.nodeAt n).key k) l0 :=
              List.dropWhile_sublist _
            rw [hd] at hsub
            have ht : t2 ∈ l0 := hsub.subset (List.mem_cons_self _ _)
            have hs2 := search_of_mem s k hinv l0 hl0 t2 ht hk
            rw [hnone] at hs2
            obtain ⟨w, hwv⟩ := (hg0 t2 ht).2.2.2.1
            rw [hwv] at hs2
            exact absurd hs2.symm (by simp)
      · simp [hk]

/-- The splice state of `add` on a missing key: the invariant is
preserved and `search` gains exactly the new binding. -/
theorem splice_spec (s : SkipList) (k v levels : Nat) (hinv : Inv s)
    (hnone : s.search k = none) (hlevle : levels ≤ s.maxLevels - 1) :
    Inv { maxLevels := s.maxLevels,
          lvl := max s.lvl levels,
          nodes := (spliceGo s.nodes.length (s.update k) 0 (levels + 1) s.nodes
              (List.replicate (levels + 1) none)).1
            ++ [⟨some k, some v,
              (spliceGo s.nodes.length (s.update k) 0 (levels + 1) s.nodes
                (List.replicate (levels + 1) none)).2⟩] } ∧
    ∀ k2, search
        { maxLevels := s.maxLevels,
          lvl := max s.lvl levels,
          nodes := (spliceGo s.nodes.length (s.update k) 0 (levels + 1) s.nodes
              (List.replicate (levels + 1) none)).1
            ++ [⟨some k, some v,
              (spliceGo s.nodes.length (s.update k) 0 (levels + 1) s.nodes
                (List.replicate (levels + 1) none)).2⟩] } k2
      = if k2 = k then some v else s.search k2 := by
  have hm := hinv.max_pos
  have hlvlt := hinv.lvl_lt
  have hrange : ∀ lv, 0 ≤ lv → lv < 0 + (levels + 1) →
      (s.update k).getD lv 0 < s.nodes.length ∧
      lv < (s.nodeAt ((s.update k).getD lv 0)).forward.length := by
    intro lv h0 hlt
    by_cases hle : lv ≤ s.lvl
    · obtain ⟨l, hl, hg, hpw⟩ := hinv.chains lv
      have hupd : (s.update k).getD lv 0 = lastBelow s k 0 l :=
        update_getD s k hinv lv hle l hl
      rcases lastBelow_cases s k l 0 with hz | ⟨hmem, hbel⟩
      · rw [hupd, hz]
        refine ⟨hinv.head_in, ?_⟩
        rw [hinv.head_len]
        omega
      · rw [hupd]
        have hgm := hg _ hmem
        exact ⟨hgm.2.1, hgm.2.2.2.2.1⟩
    · rw [update_getD_high s k lv (by omega)]
      refine ⟨hinv.head_in, ?_⟩
      rw [hinv.head_len]
      omega
  obtain ⟨R1, R2, R3, R4, R5⟩ := spliceGo_spec s.nodes.length (s.update k) (levels + 1) 0
    s.nodes (List.replicate (levels + 1) none) hrange
  simp only [List.length_replicate] at R2 R5
  set res := spliceGo s.nodes.length (s.update k) 0 (levels + 1) s.nodes
    (List.replicate (levels + 1) none) with hresdef
  set s2 : SkipList := ⟨s.maxLevels, max s.lvl levels,
    res.1 ++ [⟨some k, some v, res.2⟩]⟩ with hs2
  have hnodes2 : s2.nodes = res.1 ++ [⟨some k, some v, res.2⟩] := by rw [hs2]
  have hml2 : s2.maxLevels = s.maxLevels := by rw [hs2]
  have hlvl2 : s2.lvl = max s.lvl levels := by rw [hs2]
  have hlen2 : s2.nodes.length = s.nodes.length + 1 := by
    rw [hnodes2]
    simp [R1]
  have hnodeAt_old : ∀ j, j < s.nodes.length →
      s2.nodeAt j = res.1.getD j ⟨none, none, []⟩ := by
    intro j hj
    unfold nodeAt
    rw [hnodes2]
    exact getD_append_left _ _ _ _ (by rw [R1]; exact hj)
  have hkey_old : ∀ j, j < s.nodes.length → (s2.nodeAt j).key = (s.nodeAt j).key := by
    intro j hj
    rw [hnodeAt_old j hj]
    exact (R3 j).1
  have hval_old : ∀ j, j < s.nodes.length → (s2.nodeAt j).value = (s.nodeAt j).value := by
    intro j hj
    rw [hnodeAt_old j hj]
    exact (R3 j).2.1
  have hflen_old : ∀ j, j < s.nodes.length →
      (s2.nodeAt j).forward.length = (s.nodeAt j).forward.length := by
    intro j hj
    rw [hnodeAt_old j hj]
    exact (R3 j).2.2
  have hnodeAt_new : s2.nodeAt s.nodes.length = ⟨some k, some v, res.2⟩ := by
    unfold nodeAt
    rw [hnodes2, ← R1]
    exact getD_append_right _ _ _
  have hfwd_old : ∀ j lv, j < s.nodes.length →
      s2.fwd j lv = if lv ≤ levels ∧ j = (s.update k).getD lv 0
        then some s.nodes.length else s.fwd j lv := by
    intro j lv hj
    unfold fwd
    rw [hnodeAt_old j hj, R4 j lv]
    by_cases h : 0 ≤ lv ∧ lv < 0 + (levels + 1) ∧ j = (s.update k).getD lv 0
    · rw [if_pos h, if_pos ⟨by omega, h.2.2⟩]
    · rw [if_neg h, if_neg (by rintro ⟨h1, h2⟩; exact h ⟨by omega, by omega, h2⟩)]
      rfl
  have hfwd_new : ∀ lv, s2.fwd s.nodes.length lv
      = if lv ≤ levels then s.fwd ((s.update k).getD lv 0) lv else none := by
    intro lv
    unfold fwd
    rw [hnodeAt_new]
    show res.2.getD lv none = _
    rw [R5 lv]
    by_cases h : lv ≤ levels
    · rw [if_pos ⟨Nat.zero_le _, by omega, by omega⟩, if_pos h]
      rfl
    · rw [if_neg (by rintro ⟨h1, h2, h3⟩; omega), if_neg h]
      exact getD_replicate_none _ _
  have hkeyOf2_old : ∀ x, x < s.nodes.length → keyOf s2 x = keyOf s x := by
    intro x hx
    unfold keyOf
    rw [hkey_old x hx]
  have hkeyOf2_new : keyOf s2 s.nodes.length = k := by
    unfold keyOf
    rw [hnodeAt_new]
    rfl
  have hmain : ∀ lv l, IsChain s lv l → (∀ id ∈ l, goodId s lv id) →
      l.Pairwise (fun a b => keyOf s a < keyOf s b) →
      ∃ l2, IsChainFrom s2 lv 0 l2 ∧ (∀ id ∈ l2, goodId s2 lv id) ∧
        l2.Pairwise (fun a b => keyOf s2 a < keyOf s2 b) ∧
        (∀ x, x ∈ l2 ↔ (x ∈ l ∨ (lv ≤ levels ∧ x = s.nodes.length))) := by
    intro lv l hl hg hpw
    have hmem_l : ∀ x ∈ l, x < s.nodes.length ∧ 0 < x :=
      fun x hx => ⟨(hg x hx).2.1, (hg x hx).1⟩
    have hnd : l.Nodup := chain_nodup s l hpw
    have hgood2_old : ∀ id ∈ l, goodId s2 lv id := by
      intro id hidl
      obtain ⟨g1, g2, ⟨kk, g3⟩, ⟨ww, g4⟩, g5, g6⟩ := hg id hidl
      refine ⟨g1, by rw [hlen2]; omega, ⟨kk, by rw [hkey_old id g2]; exact g3⟩,
        ⟨ww, by rw [hval_old id g2]; exact g4⟩, by rw [hflen_old id g2]; exact g5,
        by rw [hflen_old id g2, hml2]; exact g6⟩
    by_cases hlev : lv ≤ levels
    · -- the new node is spliced in between takeWhile and dropWhile
      have hsplit : l.takeWhile (fun n => keyBelow (s.nodeAt n).key k)
          ++ l.dropWhile (fun n => keyBelow (s.nodeAt n).key k) = l :=
        List.takeWhile_append_dropWhile _ l
      have hpred : (s.update k).getD lv 0
          = (l.takeWhile (fun n => keyBelow (s.nodeAt n).key k)).getLastD 0 := by
        by_cases hle : lv ≤ s.lvl
        · rw [update_getD s k hinv lv hle l hl, lastBelow_eq_getLastD]
        · have hnil : l = [] :=
            chainFrom_unique s lv l 0 [] hl (hinv.high_none lv (by omega))
          rw [hnil, update_getD_high s k lv (by omega)]
          rfl
      have hnotk : ∀ x ∈ l, ¬ (s.nodeAt x).key = some k := by
        intro x hx hkx
        obtain ⟨l0, hl0, hg0, hpw0⟩ := hinv.chains 0
        have hx0 : x ∈ l0 := chain_subset_zero s hinv lv l l0 hl hl0 x hx
        have hsv := search_of_mem s k hinv l0 hl0 x hx0 hkx
        rw [hnone] at hsv
        obtain ⟨w, hwv⟩ := (hg0 x hx0).2.2.2.1
        rw [hwv] at hsv
        exact absurd hsv.symm (by simp)
      have hsufF : ∀ x ∈ l.dropWhile (fun n => keyBelow (s.nodeAt n).key k),
          keyBelow (s.nodeAt x).key k = false :=
        dropWhile_below_false s k l (fun id hid => (hg id hid).2.2.1) hpw
      have hpredlt : (l.takeWhile (fun n => keyBelow (s.nodeAt n).key k)).getLastD 0
          < s.nodes.length := by
        rcases List.mem_cons.mp
            (getLastD_mem_cons (l.takeWhile (fun n => keyBelow (s.nodeAt n).key k)) 0)
          with heq | hmemT
        · rw [heq]
          exact hinv.head_in
        · exact (hmem_l _ ((List.takeWhile_sublist _).subset hmemT)).1
      have hchain2 : IsChainFrom s2 lv 0
          (l.takeWhile (fun n => keyBelow (s.nodeAt n).key k)
            ++ s.nodes.length :: l.dropWhile (fun n => keyBelow (s.nodeAt n).key k)) := by
        apply chain_insert s s2 lv s.nodes.length _ 0 _
        · rw [hsplit]
          exact hl
        · intro x hx hxne
          have hxlt : x < s.nodes.length := by
            rcases hx with rfl | hx2
            · exact hinv.head_in
            · rw [hsplit] at hx2
              exact (hmem_l x hx2).1
          rw [hfwd_old x lv hxlt,
            if_neg (by rintro ⟨h1, h2⟩; exact hxne (h2.trans hpred))]
        · rw [hfwd_old _ lv hpredlt, if_pos ⟨hlev, hpred.symm⟩]
        · rw [hfwd_new lv, if_pos hlev, hpred]
        · intro h0
          have h0l : (0 : Nat) ∈ l := (List.takeWhile_sublist _).subset h0
          exact absurd (hmem_l 0 h0l).2 (lt_irrefl 0)
        · exact List.Nodup.sublist (List.takeWhile_sublist _) hnd
        · intro hmem
          have hbelowF := hsufF _ hmem
          rcases List.mem_cons.mp
              (getLastD_mem_cons (l.takeWhile (fun n => keyBelow (s.nodeAt n).key k)) 0)
            with heq | hmemT
          · rw [heq] at hmem
            have h0l : (0 : Nat) ∈ l := (List.dropWhile_sublist _).subset hmem
            exact absurd (hmem_l 0 h0l).2 (lt_irrefl 0)
          · have hbelowT0 := List.mem_takeWhile_imp hmemT
            have hbelowT : keyBelow
                (s.nodeAt ((l.takeWhile (fun n => keyBelow (s.nodeAt n).key k)).getLastD 0)).key
                  k = true := hbelowT0
            rw [hbelowT] at hbelowF
            exact Bool.noConfusion hbelowF
        · intro hmem
          have hxl : s.nodes.length ∈ l := (List.takeWhile_sublist _).subset hmem
          exact absurd (hmem_l _ hxl).1 (lt_irrefl _)
        · have := hinv.head_in
          omega
        · intro hmem
          have hxl : s.nodes.length ∈ l := (List.dropWhile_sublist _).subset hmem
          exact absurd (hmem_l _ hxl).1 (lt_irrefl _)
      have hgood2 : ∀ id ∈ (l.takeWhile (fun n => keyBelow (s.nodeAt n).key k)
          ++ s.nodes.length :: l.dropWhile (fun n => keyBelow (s.nodeAt n).key k)),
          goodId s2 lv id := by
        intro id hid
        rcases List.mem_append.mp hid with hidT | hidC
        · exact hgood2_old id ((List.takeWhile_sublist _).subset hidT)
        rcases List.mem_cons.mp hidC with rfl | hidD
        · refine ⟨by have := hinv.head_in; omega, by rw [hlen2]; omega,
            ⟨k, by rw [hnodeAt_new]⟩, ⟨v, by rw [hnodeAt_new]⟩, ?_, ?_⟩
          · rw [hnodeAt_new]
            show lv < res.2.length
            rw [R2]
            omega
          · rw [hnodeAt_new, hml2]
            show res.2.length ≤ s.maxLevels
            rw [R2]
            omega
        · exact hgood2_old id ((List.dropWhile_sublist _).subset hidD)
      have hpw2 : (l.takeWhile (fun n => keyBelow (s.nodeAt n).key k)
          ++ s.nodes.length :: l.dropWhile (fun n => keyBelow (s.nodeAt n).key k)).Pairwise
          (fun a b => keyOf s2 a < keyOf s2 b) := by
        rw [List.pairwise_append]
        refine ⟨?_, ?_, ?_⟩
        · have hsubpw : (l.takeWhile (fun n => keyBelow (s.nodeAt n).key k)).Pairwise
              (fun a b => keyOf s a < keyOf s b) :=
            hpw.sublist (List.takeWhile_sublist _)
          refine List.Pairwise.imp_of_mem ?_ hsubpw
          intro a b ha hb hab
          rw [hkeyOf2_old a (hmem_l a ((List.takeWhile_sublist _).subset ha)).1,
            hkeyOf2_old b (hmem_l b ((List.takeWhile_sublist _).subset hb)).1]
          exact hab
        · rw [List.pairwise_cons]
          constructor
          · intro b hb
            have hbl : b ∈ l := (List.dropWhile_sublist _).subset hb
            obtain ⟨kb, hkb⟩ := (hg b hbl).2.2.1
            have hF := hsufF b hb
            rw [hkb] at hF
            have hge : k ≤ kb := by
              simp [keyBelow] at hF
              omega
            have hne : kb ≠ k := by
              intro heq
              exact hnotk b hbl (by rw [hkb, heq])
            rw [hkeyOf2_new, hkeyOf2_old b (hmem_l b hbl).1]
            unfold keyOf
            rw [hkb]
            simp only [Option.getD_some]
            omega
          · have hsubpw : (l.dropWhile (fun n => keyBelow (s.nodeAt n).key k)).Pairwise
                (fun a b => keyOf s a < keyOf s b) :=
              hpw.sublist (List.dropWhile_sublist _)
            refine List.Pairwise.imp_of_mem ?_ hsubpw
            intro a b ha hb hab
            rw [hkeyOf2_old a (hmem_l a ((List.dropWhile_sublist _).subset ha)).1,
              hkeyOf2_old b (hmem_l b ((List.dropWhile_sublist _).subset hb)).1]
            exact hab
        · intro a ha b hb
          have hal : a ∈ l := (List.takeWhile_sublist _).subset ha
          have hPa0 := List.mem_takeWhile_imp ha
          have hPa : keyBelow (s.nodeAt a).key k = true := hPa0
          obtain ⟨ka, hka⟩ := (hg a hal).2.2.1
          have hka_lt : ka < k := by
            rw [hka] at hPa
            simp [keyBelow] at hPa
            omega
          rcases List.mem_cons.mp hb with rfl | hbd
          · rw [hkeyOf2_old a (hmem_l a hal).1, hkeyOf2_new]
            unfold keyOf
            rw [hka]
            simp only [Option.getD_some]
            omega
          · have hbl : b ∈ l := (List.dropWhile_sublist _).subset hbd
            obtain ⟨kb, hkb⟩ := (hg b hbl).2.2.1
            have hF := hsufF b hbd
            rw [hkb] at hF
            have hge : k ≤ kb := by
              simp [keyBelow] at hF
              omega
            rw [hkeyOf2_old a (hmem_l a hal).1, hkeyOf2_old b (hmem_l b hbl).1]
            unfold keyOf
            rw [hka, hkb]
            simp only [Option.getD_some]
            omega
      refine ⟨_, hchain2, hgood2, hpw2, ?_⟩
      intro x
      constructor
      · intro hx
        rcases List.mem_append.mp hx with h1 | h1
        · exact Or.inl ((List.takeWhile_sublist _).subset h1)
        · rcases List.mem_cons.mp h1 with rfl | h2
          · exact Or.inr ⟨hlev, rfl⟩
          · exact Or.inl ((List.dropWhile_sublist _).subset h2)
      · intro hx
        rcases hx with h1 | ⟨h2, rfl⟩
        · rw [← hsplit] at h1
          rcases List.mem_append.mp h1 with h3 | h3
          · exact List.mem_append_left _ h3
          · exact List.mem_append_right _ (List.mem_cons_of_mem _ h3)
        · exact List.mem_append_right _ (List.mem_cons_self _ _)
    · -- level above the splice window: the chain is untouched
      have hchain2 : IsChainFrom s2 lv 0 l := by
        refine chainFrom_congr s s2 lv l 0 hl ?_
        intro x hx
        have hxlt : x < s.nodes.length := by
          rcases hx with rfl | hx2
          · exact hinv.head_in
          · exact (hmem_l x hx2).1
        rw [hfwd_old x lv hxlt, if_neg (by rintro ⟨h1, h2⟩; omega)]
      refine ⟨l, hchain2, hgood2_old, ?_, ?_⟩
      · refine List.Pairwise.imp_of_mem ?_ hpw
        intro a b ha hb hab
        rw [hkeyOf2_old a (hmem_l a ha).1, hkeyOf2_old b (hmem_l b hb).1]
        exact hab
      · intro x
        constructor
        · exact fun h => Or.inl h
        · rintro (h | ⟨h1, rfl⟩)
          · exact h
          · omega
  have hinv2 : Inv s2 := by
    refine ⟨?_, ?_, ?_, ?_, ?_, ?_, ?_, ?_⟩
    · rw [hml2]
      exact hm
    · rw [hml2, hlvl2]
      omega
    · rw [hlen2]
      omega
    · rw [hkey_old 0 hinv.head_in]
      exact hinv.head_key
    · rw [hflen_old 0 hinv.head_in, hml2]
      exact hinv.head_len
    · intro lv
      obtain ⟨l, hl, hg, hpw⟩ := hinv.chains lv
      obtain ⟨l2, hc2, hg2, hpw2, hiff⟩ := hmain lv l hl hg hpw
      exact ⟨l2, hc2, hg2, hpw2⟩
    · intro lv la lb hla hlb id hid
      obtain ⟨l1, hl1, hg1, hpw1⟩ := hinv.chains (lv + 1)
      obtain ⟨l1', hc1', hg1', hpw1', hiff1⟩ := hmain (lv + 1) l1 hl1 hg1 hpw1
      obtain ⟨l0, hl0, hg0, hpw0⟩ := hinv.chains lv
      obtain ⟨l0', hc0', hg0', hpw0', hiff0⟩ := hmain lv l0 hl0 hg0 hpw0
      have hEa : l1' = la := chainFrom_unique s2 (lv + 1) l1' 0 la hc1' hla
      have hEb : l0' = lb := chainFrom_unique s2 lv l0' 0 lb hc0' hlb
      rw [← hEa] at hid
      rw [← hEb]
      rcases (hiff1 id).mp hid with h1 | ⟨h1, rfl⟩
      · exact (hiff0 id).mpr (Or.inl (hinv.contain lv l1 l0 hl1 hl0 id h1))
      · exact (hiff0 _).mpr (Or.inr ⟨by omega, rfl⟩)
    · intro lv hlv
      rw [hlvl2] at hlv
      rw [hfwd_old 0 lv hinv.head_in, if_neg (by rintro ⟨h1, h2⟩; omega)]
      exact hinv.high_none lv (by omega)
  refine ⟨hinv2, ?_⟩
  intro k2
  obtain ⟨l0, hl0, hg0, hpw0⟩ := hinv.chains 0
  obtain ⟨l2, hc2, hg2, hpw2, hiff⟩ := hmain 0 l0 hl0 hg0 hpw0
  by_cases hk2 : k2 = k
  · rw [if_pos hk2, hk2]
    have hmem : s.nodes.length ∈ l2 := (hiff _).mpr (Or.inr ⟨Nat.zero_le _, rfl⟩)
    have hres := search_of_mem s2 k hinv2 l2 hc2 s.nodes.length hmem
      (by rw [hnodeAt_new])
    rw [hres, hnodeAt_new]
  · rw [if_neg hk2]
    cases hs : s.search k2 with
    | some w =>
        obtain ⟨t, htl, htk, htv⟩ := search_some_mem s k2 w hinv l0 hl0 hs
        have htl2 : t ∈ l2 := (hiff t).mpr (Or.inl htl)
        have htres := search_of_mem s2 k2 hinv2 l2 hc2 t htl2
          (by rw [hkey_old t ((hg0 t htl).2.1)]; exact htk)
        rw [htres, hval_old t ((hg0 t htl).2.1), htv]
    | none =>
        apply search_of_not_mem s2 k2 hinv2 l2 hc2
        intro t htmem hkey2
        rcases (hiff t).mp htmem with htl | ⟨h1, rfl⟩
        · have htlt := (hg0 t htl).2.1
          rw [hkey_old t htlt] at hkey2
          have hsv := search_of_mem s k2 hinv l0 hl0 t htl hkey2
          rw [hs] at hsv
          obtain ⟨w, hwv⟩ := (hg0 t htl).2.2.2.1
          rw [hwv] at hsv
          exact absurd hsv.symm (by simp)
        · rw [hnodeAt_new] at hkey2
          have hkk : k = k2 := by simpa using hkey2
          exact hk2 hkk.symm

/-- `add` of a missing key: the invariant is preserved and `search`
gains exactly the new binding. -/
theorem add_spec (s : SkipList) (k v : Nat) (coins : List Bool) (hinv : Inv s)
    (hnone : s.search k = none) :
    Inv (s.add k v coins) ∧
    ∀ k2, (s.add k v coins).search k2 = if k2 = k then some v else s.search k2 := by
  have hlevle : randomLevel s.maxLevels coins 0 ≤ s.maxLevels - 1 := by
    have h1 := randomLevel_le s.maxLevels coins 0
    omega
  rw [add_eq_of_none s k v coins hinv hnone]
  exact splice_spec s k v (randomLevel s.maxLevels coins 0) hinv hnone hlevle

theorem Inv_empty (M : Nat) (hM : 1 ≤ M) : Inv (empty M) := by
  have hfwd0 : ∀ lv, (empty M).fwd 0 lv = none := by
    intro lv
    show (List.replicate M (none : Option Nat)).getD lv none = none
    exact getD_replicate_none M lv
  refine ⟨hM, ?_, ?_, ?_, ?_, ?_, ?_, ?_⟩
  · show 0 < M
    omega
  · exact Nat.one_pos
  · rfl
  · show (List.replicate M (none : Option Nat)).length = M
    simp
  · intro lv
    exact ⟨[], hfwd0 lv, by simp, List.Pairwise.nil⟩
  · intro lv l l2 h1 h2 id hid
    cases l with
    | nil => simp at hid
    | cons n rest =>
        obtain ⟨hf, hr⟩ := h1
        rw [hfwd0 (lv + 1)] at hf
        exact absurd hf (by simp)
  · intro lv hlv
    exact hfwd0 lv

theorem search_empty (M k : Nat) (hM : 1 ≤ M) : (empty M).search k = none := by
  apply search_of_not_mem (empty M) k (Inv_empty M hM) []
  · exact getD_replicate_none M 0
  · intro t ht
    simp at ht

/-- The constructor's fold: the invariant holds throughout and `search`
resolves to the first matching entry (later duplicates are no-ops). -/
theorem foldAdd_spec (entries : List (Nat × Nat × List Bool)) : ∀ (s : SkipList), Inv s →
    Inv (entries.foldl (fun s e => s.add e.1 e.2.1 e.2.2) s) ∧
    ∀ k, (entries.foldl (fun s e => s.add e.1 e.2.1 e.2.2) s).search k
      = (s.search k).or ((entries.find? (fun e => e.1 = k)).map (fun e => e.2.1)) := by
  induction entries with
  | nil =>
      intro s hs
      refine ⟨hs, fun k => ?_⟩
      simp
  | cons e rest ih =>
      intro s hs
      rw [List.foldl_cons]
      cases hse : s.search e.1 with
      | some w =>
          rw [add_of_found s e.1 e.2.1 w e.2.2 hse]
          obtain ⟨ih1, ih2⟩ := ih s hs
          refine ⟨ih1, fun k => ?_⟩
          rw [ih2 k]
          by_cases hk : e.1 = k
          · rw [List.find?_cons_of_pos _ (by simp [hk]), ← hk, hse]
            simp [Option.or]
          · rw [List.find?_cons_of_neg _ (by simp [hk])]
      | none =>
          obtain ⟨hinv2, hsrch2⟩ := add_spec s e.1 e.2.1 e.2.2 hs hse
          obtain ⟨ih1, ih2⟩ := ih _ hinv2
          refine ⟨ih1, fun k => ?_⟩
          rw [ih2 k, hsrch2 k]
          by_cases hk : e.1 = k
          · rw [if_pos hk.symm, List.find?_cons_of_pos _ (by simp [hk]), ← hk, hse]
            simp [Option.or]
          · rw [if_neg (fun h => hk h.symm), List.find?_cons_of_neg _ (by simp [hk])]

/-- `SkipList(keys, values, max_levels)` keeps the first value bound to
each key, and every constructed list satisfies the invariant. -/
theorem build_spec (entries : List (Nat × Nat × List Bool)) (M : Nat) (hM : 1 ≤ M) :
    Inv (build entries M) ∧
    ∀ k, (build entries M).search k
      = (entries.find? (fun e => e.1 = k)).map (fun e => e.2.1) := by
  obtain ⟨h1, h2⟩ := foldAdd_spec entries (empty M) (Inv_empty M hM)
  refine ⟨h1, fun k => ?_⟩
  unfold build
  rw [h2 k, search_empty M k hM]
  simp [Option.or]

/-- Fresh-key round trip for `add`. -/
theorem skip_add_search_self (s : SkipList) (k v : Nat) (coins : List Bool) (hinv : Inv s)
    (hnone : s.search k = none) : (s.add k v coins).search k = some v := by
  have h := (add_spec s k v coins hinv hnone).2 k
  rwa [if_pos rfl] at h

/-- Other keys are untouched by `add`. -/
theorem skip_add_search_other (s : SkipList) (k k2 v : Nat) (coins : List Bool) (hinv : Inv s)
    (hnone : s.search k = none) (hne : k2 ≠ k) :
    (s.add k v coins).search k2 = s.search k2 := by
  have h := (add_spec s k v coins hinv hnone).2 k2
  rwa [if_neg hne] at h

/-- Duplicate `add` keeps the first value. -/
theorem skip_add_dup (s : SkipList) (k v w : Nat) (coins : List Bool)
    (hw : s.search k = some w) : (s.add k v coins).search k = some w := by
  rw [add_of_found s k v w coins hw]
  exact hw

end SkipList

/-- **C10** — A `SkipList` built from an empty key sequence with no
`max_levels` fails during construction (`math.log(0, 2)` raises
`ValueError`); for a non-empty key sequence of length `n` the derived
default equals `max(1, min(32, ceil(log2 n)))`, where `Nat.clog 2 n`
is exactly that ceiling (witnessed by its characteristic property
against powers of two); a supplied `max_levels` of 0 is treated as
unsupplied. -/
theorem C10_default_max_levels :
    SkipList.make [] [] [] none = Except.error "ValueError" ∧
    (∀ keys values : List Nat, ∀ coinss : List (List Bool), keys ≠ [] →
      ∃ s, SkipList.make keys values coinss none = Except.ok s ∧
        s.maxLevels = max 1 (min 32 (Nat.clog 2 keys.length)) ∧
        keys.length ≤ 2 ^ Nat.clog 2 keys.length ∧
        (∀ c, keys.length ≤ 2 ^ c → Nat.clog 2 keys.length ≤ c)) ∧
    (∀ n, SkipList.defaultMaxLevels (some 0) n = SkipList.defaultMaxLevels none n) := by
  refine ⟨rfl, ?_, fun n => rfl⟩
  intro keys values coinss hne
  have hlen : keys.length ≠ 0 := by simpa using hne
  have hmk : SkipList.make keys values coinss none
      = Except.ok (SkipList.build (keys.zip (values.zip coinss))
          (max 1 (min 32 (Nat.clog 2 keys.length)))) := by
    unfold SkipList.make SkipList.defaultMaxLevels
    simp [hlen]
  refine ⟨_, hmk, SkipList.build_maxLevels _ _, ?_, ?_⟩
  · exact (Nat.le_pow_iff_clog_le (by norm_num)).mpr le_rfl
  · intro c hc
    exact (Nat.le_pow_iff_clog_le (by norm_num)).mp hc

/-- Witness for C10 at a concrete non-empty input. -/
theorem C10_default_max_levels_witness :
    ∃ s, SkipList.make [1, 2, 3] [4, 5, 6] [[], [], []] none = Except.ok s ∧
      s.maxLevels = max 1 (min 32 (Nat.clog 2 3)) ∧
      3 ≤ 2 ^ Nat.clog 2 3 ∧
      (∀ c, 3 ≤ 2 ^ c → Nat.clog 2 3 ≤ c) :=
  C10_default_max_levels.2.1 [1, 2, 3] [4, 5, 6] [[], [], []] (by decide)

/-- **C1** — Counter-evaluation: on the adaptive radix trie built with
`radix=10` from keys `{3, 21}` (both keys present, as the searches
show), the greedy largest-digit descent `getMaxKey()` returns 3 even
though `max(K) = 21`, and the smallest-digit pre-order `getMinKey()`
returns 21 even though `min(K) = 3`; likewise the LAT's
largest-present-digit descent returns 255 on key set
`{0, 1, 255, 256}` (key 256 aliases key 0's path) even though
`max(K) = 256`.  The greedy descents are not min/max-correct. -/
theorem C1_minmax_failing_eval :
    (RadixTrie.build [3, 21] [30, 210] (some 10)).search 3 = some 30 ∧
    (RadixTrie.build [3, 21] [30, 210] (some 10)).search 21 = some 210 ∧
    (RadixTrie.build [3, 21] [30, 210] (some 10)).getMaxKey = 3 ∧
    (RadixTrie.build [3, 21] [30, 210] (some 10)).getMinKey = some 21 ∧
    (LAT.build [0, 1, 255, 256] [10, 11, 12, 13] (some 4) (some 4)).search 256 = some 13 ∧
    (LAT.build [0, 1, 255, 256] [10, 11, 12, 13] (some 4) (some 4)).getMaxKey =
      Except.ok 255 := by
  decide

/-- **C6** — Counter-evaluation: on the reachable skip list state
built (`max_levels = 2`) by inserting keys 1, 2, 3 with the *same*
value 7 at drawn levels 1, 0, 1, the key 2 is present, yet `delete(2)`
raises `IndexError`: at level 1 the removal walk's
`nxt == old_node` test compares by `skipNode.__eq__`, i.e. by value,
matches the *different* node keyed 3, and then reads
`old_node.forward[1]` past the end of the target's one-level forward
array.  With distinct values the same deletion succeeds and unlinks
exactly the target. -/
theorem C6_delete_indexerror_eval :
    SkipList.search (SkipList.build [(1, 7, [true]), (2, 7, []), (3, 7, [true])] 2) 2
      = some 7 ∧
    SkipList.delete (SkipList.build [(1, 7, [true]), (2, 7, []), (3, 7, [true])] 2) 2
      = Except.error "IndexError" ∧
    (SkipList.delete (SkipList.build [(1, 7, [true]), (2, 8, []), (3, 9, [true])] 2) 2).map
        (fun s2 => (s2.search 2, s2.search 1, s2.search 3))
      = Except.ok (none, some 7, some 9) := by
  decide

/-- **C7** — Counter-evaluation: `search` on an empty AVL tree does
not return not-found; the loop guard `while node.key != key`
dereferences the `None` root and raises `AttributeError`, for every
probed key. -/
theorem C7_empty_search_raises (k : Nat) :
    binarySearchTree.search (binarySearchTree.build [] []) k
      = Except.error "AttributeError" := rfl

/-- **C8** — On the LAT built with `radix=4`, `height=4` from keys
`[0, 1, 255, 256]` (capacity `4^4 = 256` paths, so key 256 aliases key
0's digit path), `search(256)` still returns the value stored for 256
— the leaf dict is keyed by the full key — and `search(257)` (aliasing
key 1's path) returns not-found. -/
theorem C8_lat_alias_search :
    4 ^ 4 = 256 ∧
    (LAT.build [0, 1, 255, 256] [10, 11, 12, 13] (some 4) (some 4)).search 256
      = some 13 ∧
    (LAT.build [0, 1, 255, 256] [10, 11, 12, 13] (some 4) (some 4)).search 257
      = none := by
  decide

/-- **C9** — On the adaptive radix trie built from empty sequences
(root valueless and childless), `getMaxKey()` returns 0 and
`getMinKey()` returns `None`; neither raises. -/
theorem C9_empty_trie_minmax :
    (RadixTrie.build [] [] none).getMaxKey = 0 ∧
    (RadixTrie.build [] [] none).getMinKey = none := by
  decide

/-- **C2** — Amended round trip: after `add(k, v)` of a fresh key,
`search(k)` yields the binding in each structure, but the AVL tree
returns the *node object* holding the value — never the bare value
`v`, so the original "returns exactly the value v" fails there; the
skip list (on an invariant state), the LAT (on a well-formed state of
nonzero height) and the adaptive trie return exactly `some v`; and
search of an absent key is not-found in all four structures: on an
ordered AVL tree without the key the search loop reports not-found,
and the built skip list, LAT, adaptive trie and AVL tree all answer
not-found for a key outside the constructor's key sequence. -/
theorem C2_roundtrip_corrected :
    (∀ (t : BTree) (k v : Nat), binarySearchTree.Ordered t →
      binarySearchTree.hasKey t k = false →
      (binarySearchTree.searchNode (binarySearchTree.add t k v) k).map
          (fun n => (binarySearchTree.nodeKey n, binarySearchTree.nodeValue n))
        = some (k, v)) ∧
    (∀ (t : BTree) (k w : Nat),
      binarySearchTree.searchPy t k ≠ Except.ok (PyRes.pint w)) ∧
    (∀ (s : SkipList) (k v : Nat) (coins : List Bool), SkipList.Inv s →
      s.search k = none → (s.add k v coins).search k = some v) ∧
    (∀ (t : LAT) (k v : Nat), t.height ≠ 0 → LAT.wf t.root t.height = true →
      (t.add k v).search k = some v) ∧
    (∀ (t : RadixTrie) (k v : Nat), t.search k = none →
      (t.add k v).search k = some v) ∧
    (∀ (t : BTree) (k : Nat), binarySearchTree.Ordered t →
      binarySearchTree.hasKey t k = false →
      binarySearchTree.searchNode t k = none) ∧
    (∀ (entries : List (Nat × Nat × List Bool)) (M k : Nat), 1 ≤ M →
      (∀ e ∈ entries, e.1 ≠ k) → (SkipList.build entries M).search k = none) ∧
    (∀ (keys values : List Nat) (radix height : Option Nat) (k : Nat), k ∉ keys →
      (LAT.build keys values radix height).search k = none) ∧
    (∀ (keys values : List Nat) (r k : Nat), 2 ≤ r → k ∉ keys →
      (RadixTrie.build keys values (some r)).search k = none) ∧
    (∀ (keys values : List Nat) (k : Nat), k ∉ keys →
      binarySearchTree.searchNode (binarySearchTree.build keys values) k = none) := by
  refine ⟨binarySearchTree.add_search_self, ?_, SkipList.skip_add_search_self,
    LAT.lat_add_search_self, RadixTrie.trie_add_search_self, ?_, ?_, ?_, ?_, ?_⟩
  · intro t k w h
    unfold binarySearchTree.searchPy at h
    cases hs : binarySearchTree.search t k with
    | error e =>
        rw [hs] at h
        simp at h
    | ok o =>
        rw [hs] at h
        cases o with
        | none => simp at h
        | some n => simp at h
  · intro t k ho hk
    have hmem : k ∉ (binarySearchTree.inorder t).map Prod.fst := by
      intro hm
      rw [(binarySearchTree.hasKey_iff t k).mpr hm] at hk
      simp at hk
    have hfind : (binarySearchTree.inorder t).find? (fun p => p.1 = k) = none := by
      rw [List.find?_eq_none]
      intro p hp
      simp only [decide_eq_true_eq]
      intro hpk
      exact hmem (List.mem_map.mpr ⟨p, hp, hpk⟩)
    have heq := binarySearchTree.searchNode_eq t k ho
    rw [hfind] at heq
    exact Option.map_eq_none'.mp heq
  · intro entries M k hM hne
    rw [(SkipList.build_spec entries M hM).2 k]
    have hfind : entries.find? (fun e => e.1 = k) = none := by
      rw [List.find?_eq_none]
      intro e he
      simp only [decide_eq_true_eq]
      exact hne e he
    rw [hfind]
    rfl
  · intro keys values radix height k hk
    rw [LAT.lat_build_search]
    have hfind : (keys.zip values).reverse.find? (fun p => p.1 = k) = none := by
      rw [List.find?_eq_none]
      intro p hp
      obtain ⟨p1, p2⟩ := p
      rw [List.mem_reverse] at hp
      have h1 : p1 ∈ keys := (List.of_mem_zip hp).1
      simp only [decide_eq_true_eq]
      intro he
      rw [he] at h1
      exact hk h1
    rw [hfind]
    rfl
  · intro keys values r k hr hk
    rw [RadixTrie.trie_build_search keys values r hr k]
    have hfind : (RadixTrie.sortedPairs keys values).find? (fun p => p.1 = k)
        = none := by
      rw [List.find?_eq_none]
      intro p hp
      obtain ⟨p1, p2⟩ := p
      have hzip : (p1, p2) ∈ keys.zip values :=
        (List.perm_insertionSort RadixTrie.pairLe (keys.zip values)).mem_iff.mp hp
      have h1 : p1 ∈ keys := (List.of_mem_zip hzip).1
      simp only [decide_eq_true_eq]
      intro he
      rw [he] at h1
      exact hk h1
    rw [hfind]
    rfl
  · intro keys values k hk
    have hfind : (keys.zip values).find? (fun p => p.1 = k) = none := by
      rw [List.find?_eq_none]
      intro p hp
      obtain ⟨p1, p2⟩ := p
      have h1 : p1 ∈ keys := (List.of_mem_zip hp).1
      simp only [decide_eq_true_eq]
      intro he
      rw [he] at h1
      exact hk h1
    have h := binarySearchTree.build_search keys values k
    rw [hfind] at h
    exact Option.map_eq_none'.mp h

/-- Counter-evaluation for C2: on the AVL tree built from key 1 with
value 7, `search(1)` observably returns the node object (key 1,
value 7, cached height 1), which is not the integer 7. -/
theorem C2_bst_returns_node_eval :
    binarySearchTree.searchPy (binarySearchTree.build [1] [7]) 1
      = Except.ok (PyRes.pnode (.node 1 7 .nil .nil 1)) ∧
    (Except.ok (PyRes.pnode (.node 1 7 .nil .nil 1)) : Except String PyRes)
      ≠ Except.ok (PyRes.pint 7) := by
  decide

/-- Witness for C2's amended statement at concrete inputs. -/
theorem C2_roundtrip_corrected_witness :
    (binarySearchTree.searchNode (binarySearchTree.add .nil 1 7) 1).map
        (fun n => (binarySearchTree.nodeKey n, binarySearchTree.nodeValue n))
      = some (1, 7) ∧
    binarySearchTree.searchPy .nil 1 ≠ Except.ok (PyRes.pint 7) ∧
    ((SkipList.empty 2).add 1 7 [true]).search 1 = some 7 ∧
    ((LAT.build [] [] none none).add 1 7).search 1 = some 7 ∧
    ((RadixTrie.build [] [] none).add 1 7).search 1 = some 7 ∧
    binarySearchTree.searchNode (binarySearchTree.build [5] [9]) 1 = none ∧
    (SkipList.build [(5, 9, [true])] 2).search 3 = none ∧
    (LAT.build [5] [9] none none).search 3 = none ∧
    (RadixTrie.build [5] [9] (some 10)).search 3 = none ∧
    binarySearchTree.searchNode (binarySearchTree.build [5, 2] [9, 4]) 3 = none := by
  obtain ⟨h1, h2, h3, h4, h5, h6, h7, h8, h9, h10⟩ := C2_roundtrip_corrected
  exact ⟨h1 .nil 1 7 List.Pairwise.nil (by decide),
    h2 .nil 1 7,
    h3 (SkipList.empty 2) 1 7 [true] (SkipList.Inv_empty 2 (by decide)) (by decide),
    h4 (LAT.build [] [] none none) 1 7 (by decide) (by decide),
    h5 (RadixTrie.build [] [] none) 1 7 (by decide),
    h6 (binarySearchTree.build [5] [9]) 1 (binarySearchTree.Ordered_build [5] [9])
      (by decide),
    h7 [(5, 9, [true])] 2 3 (by decide) (by decide),
    h8 [5] [9] none none 3 (by decide),
    h9 [5] [9] 10 3 (by decide) (by decide),
    h10 [5, 2] [9, 4] 3 (by decide)⟩

/-- **C4** — Duplicate `add` policy, per component, exactly as the
claim documents: the AVL tree keeps the first value (the second `add`
returns early on an equal key), the skip list keeps the first value
(the duplicate probe makes `add` a no-op), the LAT keeps the *last*
value (leaf-level dict overwrite), and the adaptive trie keeps the
first value (no write when the target node already holds a value). -/
theorem C4_duplicate_add_policy :
    (∀ (t : BTree) (k v w : Nat), binarySearchTree.Ordered t →
      binarySearchTree.hasKey t k = false →
      (binarySearchTree.searchNode
          (binarySearchTree.add (binarySearchTree.add t k v) k w) k).map
        (fun n => (binarySearchTree.nodeKey n, binarySearchTree.nodeValue n))
      = some (k, v)) ∧
    (∀ (s : SkipList) (k v w : Nat) (c1 c2 : List Bool), SkipList.Inv s →
      s.search k = none → ((s.add k v c1).add k w c2).search k = some v) ∧
    (∀ (t : LAT) (k v w : Nat), t.height ≠ 0 → LAT.wf t.root t.height = true →
      ((t.add k v).add k w).search k = some w) ∧
    (∀ (t : RadixTrie) (k v w : Nat), t.search k = none →
      ((t.add k v).add k w).search k = some v) := by
  refine ⟨?_, ?_, ?_, ?_⟩
  · intro t k v w ho hk
    have h1 := binarySearchTree.add_search_self t k v ho hk
    have ho2 := binarySearchTree.Ordered_add t k v ho
    have hk2 : binarySearchTree.hasKey (binarySearchTree.add t k v) k = true := by
      have heq := binarySearchTree.searchNode_eq (binarySearchTree.add t k v) k ho2
      rw [h1] at heq
      have hmem := List.mem_of_find?_eq_some heq.symm
      exact (binarySearchTree.hasKey_iff _ k).mpr
        (List.mem_map.mpr ⟨(k, v), hmem, rfl⟩)
    rw [binarySearchTree.add_dup (binarySearchTree.add t k v) k w ho2 hk2]
    exact h1
  · intro s k v w c1 c2 hinv hnone
    have h1 := SkipList.skip_add_search_self s k v c1 hinv hnone
    exact SkipList.skip_add_dup (s.add k v c1) k w v c2 h1
  · intro t k v w hh hwf
    exact LAT.lat_add_search_self (t.add k v) k w
      (by rw [LAT.add_height]; exact hh) (LAT.wf_add t k v hwf)
  · intro t k v w h
    have h1 := RadixTrie.trie_add_search_self t k v h
    rw [RadixTrie.trie_add_dup (t.add k v) k w v h1]
    exact h1

/-- Witness for C4 at concrete inputs (values 7 then 9 under key 3). -/
theorem C4_duplicate_add_policy_witness :
    (binarySearchTree.searchNode
        (binarySearchTree.add (binarySearchTree.add .nil 3 7) 3 9) 3).map
      (fun n => (binarySearchTree.nodeKey n, binarySearchTree.nodeValue n))
      = some (3, 7) ∧
    (((SkipList.empty 2).add 3 7 []).add 3 9 []).search 3 = some 7 ∧
    (((LAT.build [] [] none none).add 3 7).add 3 9).search 3 = some 9 ∧
    (((RadixTrie.build [] [] none).add 3 7).add 3 9).search 3 = some 7 := by
  obtain ⟨h1, h2, h3, h4⟩ := C4_duplicate_add_policy
  exact ⟨h1 .nil 3 7 9 List.Pairwise.nil (by decide),
    h2 (SkipList.empty 2) 3 7 9 [] [] (SkipList.Inv_empty 2 (by decide)) (by decide),
    h3 (LAT.build [] [] none none) 3 7 9 (by decide) (by decide),
    h4 (RadixTrie.build [] [] none) 3 7 9 (by decide)⟩

/-- **C5** — Amended build policy on duplicate keys: only the AVL tree
and the skip list resolve duplicates first-wins; the LAT retains the
value of the *last* occurrence (its build loop overwrites at the
leaf dict), and the adaptive trie — whose constructor sorts the zipped
pairs by key then value before inserting first-write-wins — retains
the *smallest* value bound to the key. -/
theorem C5_build_duplicate_policy :
    (∀ (keys values : List Nat) (k : Nat),
      (binarySearchTree.searchNode (binarySearchTree.build keys values) k).map
          (fun n => (binarySearchTree.nodeKey n, binarySearchTree.nodeValue n))
        = (firstWin (keys.zip values) k).map (fun v => (k, v))) ∧
    (∀ (entries : List (Nat × Nat × List Bool)) (M k : Nat), 1 ≤ M →
      (SkipList.build entries M).search k
        = (entries.find? (fun e => e.1 = k)).map (fun e => e.2.1)) ∧
    (∀ (keys values : List Nat) (radix height : Option Nat) (k : Nat),
      (LAT.build keys values radix height).search k = lastWin (keys.zip values) k) ∧
    (∀ (keys values : List Nat) (r : Nat), 2 ≤ r → ∀ k,
      (RadixTrie.build keys values (some r)).search k
        = minValFor (keys.zip values) k) := by
  refine ⟨?_, ?_, ?_, ?_⟩
  · intro keys values k
    rw [binarySearchTree.build_search]
    unfold firstWin
    cases (keys.zip values).find? (fun p => p.1 = k) <;> rfl
  · intro entries M k hM
    exact (SkipList.build_spec entries M hM).2 k
  · intro keys values radix height k
    rw [LAT.lat_build_search]
    rfl
  · intro keys values r hr k
    rw [RadixTrie.trie_build_search keys values r hr k]
    exact RadixTrie.find?_sortedPairs_min keys values k

/-- Counter-evaluation for C5: built from `keys = [5, 5]`,
`values = [9, 1]`, first-wins predicts value 9 for key 5 — the AVL
tree and skip list deliver it, but the LAT returns 1 (last occurrence)
and the adaptive trie returns 1 (smallest value after sorting). -/
theorem C5_lat_trie_not_first_wins_eval :
    firstWin ([5, 5].zip [9, 1]) 5 = some 9 ∧
    (LAT.build [5, 5] [9, 1] none none).search 5 = some 1 ∧
    (RadixTrie.build [5, 5] [9, 1] (some 10)).search 5 = some 1 ∧
    (binarySearchTree.searchNode (binarySearchTree.build [5, 5] [9, 1]) 5).map
        (fun n => (binarySearchTree.nodeKey n, binarySearchTree.nodeValue n))
      = some (5, 9) ∧
    (SkipList.build [(5, 9, []), (5, 1, [])] 2).search 5 = some 9 := by
  decide

/-- Witness for C5's amended statement at concrete duplicate-key
inputs. -/
theorem C5_build_duplicate_policy_witness :
    (binarySearchTree.searchNode (binarySearchTree.build [5, 5] [9, 1]) 5).map
        (fun n => (binarySearchTree.nodeKey n, binarySearchTree.nodeValue n))
      = (firstWin ([5, 5].zip [9, 1]) 5).map (fun v => (5, v)) ∧
    (SkipList.build [(5, 9, [true]), (5, 1, [])] 2).search 5
      = (([(5, 9, [true]), (5, 1, [])] : List (Nat × Nat × List Bool)).find?
          (fun e => e.1 = 5)).map (fun e => e.2.1) ∧
    (LAT.build [5, 5] [9, 1] none none).search 5 = lastWin ([5, 5].zip [9, 1]) 5 ∧
    (RadixTrie.build [5, 5] [9, 1] (some 10)).search 5
      = minValFor ([5, 5].zip [9, 1]) 5 := by
  obtain ⟨h1, h2, h3, h4⟩ := C5_build_duplicate_policy
  exact ⟨h1 [5, 5] [9, 1] 5,
    h2 [(5, 9, [true]), (5, 1, [])] 2 5 (by decide),
    h3 [5, 5] [9, 1] none none 5,
    h4 [5, 5] [9, 1] 10 (by decide) 5⟩

end DSBench
